import Mathlib

/-!
Verification of the ntl container and synchronization library against its
specification.  The C++ sources (Array.hpp, Map.hpp, String.cpp,
SharedLock.cpp) are shallowly embedded: the live element sequence of a
container becomes a Lean list, loops become structural recursions, machine
indices become Nat or Int, and operations whose VERIFY preconditions abort
become Option-valued functions (none = abort).  Memory-layout behaviour
(reads of uninitialized bytes past the live region, buffer overruns) is
outside the embedding and is noted in comments where the source touches it.
-/

namespace NtlStr

/-- A byte of the C string buffer, modelled as a natural number; 0 is the
NUL terminator.  The live content of an ntl::String is the list of its
m_used bytes. -/
abbrev Byte := Nat

/-- String::Replace(const char a_old, const char a_new).  When a_new is the
NUL sentinel: scan to the first occurrence of a_old (findIdx, which is
m_used when absent, exactly like the source's first loop), shift the tail
left by one (the shift loop reads up to m_data[m_used], the terminator),
and decrement m_used unconditionally.  The live result is therefore
(take i0 ++ drop (i0+1)) truncated to m_used - 1: for i0 < m_used the
truncation is a no-op, for i0 = m_used it drops the final character.
On an empty string m_used-- underflows Size and the terminator write is
out of bounds (UB); modelled as failure.  When a_new is not NUL, every
occurrence of a_old is overwritten in place. -/
def ReplaceChar (s : List Byte) (oldc newc : Byte) : Option (List Byte) :=
  if newc = 0 then
    if s.length = 0 then none
    else
      let i0 := s.findIdx (· = oldc)
      some ((s.take i0 ++ s.drop (i0 + 1)).take (s.length - 1))
  else
    some (s.map fun c => if c = oldc then newc else c)

/-- String::Remove(const char a_other) = Replace(a_other, a_nul). -/
def Remove (s : List Byte) (c : Byte) : Option (List Byte) :=
  ReplaceChar s c 0

end NtlStr

namespace NtlArr

variable {α : Type} [LinearOrder α] [Inhabited α]

/-- Reading m_data[i].value.  The live prefix of an ntl::Array is modelled
as the list of its m_used constructed values; reads are always in bounds in
the defined executions modelled here, so the default is never observed. -/
def getA (l : List α) (i : Nat) : α := l.getD i default

/-- Array::Swap on the raw buffer (temp = data[i]; data[i] = data[j];
data[j] = temp).  The VERIFY bounds checks of the public method hold at
every call site modelled here. -/
def swapA (l : List α) (i j : Nat) : List α :=
  (l.set i (getA l j)).set j (getA l i)

/-- The inner while loop of Array::insertionSort, with the hole position
pos = j + 1 as the recursion variable.  The source writes the guard as
`m_data[j].value > temp.value && j >= 0`: the element read precedes the
bounds test.  While data[j] > temp the loop copies data[j] up to
data[j+1] and moves the hole left; temp lands in the hole only when the
comparison fails at some j >= 0.  When the hole reaches position 0 the
next guard evaluation reads m_data[-1], out of bounds: C++ assigns no
result to that execution (if the garbage compares greater it is even
copied into the live prefix), so the model returns none there. -/
def insInner (l : List α) (temp : α) : Nat → Option (List α)
  | 0 => none
  | pos + 1 =>
    if getA l pos > temp then insInner (l.set (pos + 1) (getA l pos)) temp pos
    else some (l.set (pos + 1) temp)

/-- The outer for loop of Array::insertionSort: i runs from 1 while
i < m_used; fuel is the remaining iteration count m_used - i.  A pass
whose scan hits the out-of-bounds read poisons the whole sort. -/
def insertionSortLoop : List α → Nat → Nat → Option (List α)
  | l, _, 0 => some l
  | l, i, fuel + 1 =>
    (insInner l (getA l i) i).bind fun l2 => insertionSortLoop l2 (i + 1) fuel

/-- Array::insertionSort (ascending, via the > comparison); none when
some pass reads m_data[-1], i.e. whenever a pass inserts a strict new
minimum of the prefix before it. -/
def insertionSort (l : List α) : Option (List α) :=
  insertionSortLoop l 1 (l.length - 1)

/-- The merge loop of Array::mergeSort: take from the first run while
`j < size1 && (k == size2 || array1[j] <= array2[k])`, else from the
second run. -/
def mergeRun : List α → List α → List α
  | [], ys => ys
  | x :: xs, [] => x :: xs
  | x :: xs, y :: ys =>
    if x ≤ y then x :: mergeRun xs (y :: ys) else y :: mergeRun (x :: xs) ys
termination_by xs ys => xs.length + ys.length

/-- Array::mergeSort(a_array, a_capacity, a_used) on the live run: a run of
length <= 1 is returned as-is (the source copies a_array[0] into a fresh
1-chunk buffer; for a_used = 0, which only occurs at the top level, the
copied chunk is unconstructed and the live prefix stays empty), otherwise
split at size1 = a_used / 2, recurse on both halves and merge.  The
a_capacity parameter only sizes the temporary allocation and has no effect
on the live contents. -/
def mergeSortRec (l : List α) : List α :=
  if h : l.length ≤ 1 then l
  else
    mergeRun (mergeSortRec (l.take (l.length / 2)))
      (mergeSortRec (l.drop (l.length / 2)))
termination_by l.length
decreasing_by
  · simp only [List.length_take]
    omega
  · simp only [List.length_drop]
    omega

/-- The partition loop of Array::partition with s = i + 1 (the source keeps
i = s - 1, starting at a_from - 1): for j from a_from to a_to - 1, if
data[j] <= pivot then Swap(s, j) and increment s.  fuel = a_to - j is the
remaining iteration count.  The pivot is passed by value: the source holds
a reference to m_data[a_to].value, which no Swap of the loop touches
(s <= j < a_to). -/
def partLoop (p : α) : List α → Nat → Nat → Nat → List α × Nat
  | l, s, _, 0 => (l, s)
  | l, s, j, n + 1 =>
    if getA l j ≤ p then partLoop p (swapA l s j) (s + 1) (j + 1) n
    else partLoop p l s (j + 1) n

/-- Array::partition(a_from, a_to): pivot = data[a_to]; run the loop, then
Swap(s, a_to) and return s (the source increments i once more and returns
it, which equals s). -/
def partition (l : List α) (f t : Nat) : List α × Nat :=
  let p := getA l t
  let r := partLoop p l f f (t - f)
  (swapA r.1 r.2 t, r.2)

/-- Array::quickSort(a_from, a_to).  The from argument is I64 in the
source but every call passes a non-negative value (0 at the top, k + 1 in
the recursion), so it is embedded as Nat; a_to is genuinely -1 for an
empty array (Sort passes m_used - 1, whose Size underflow converts to the
I64 -1) and stays Int.  Early return when m_used = 0; base case when
a_from >= a_to (where the source also sets m_sorted). -/
def quickSortAux (l : List α) (f : Nat) (t : Int) : List α :=
  if l.length = 0 then l
  else if (f : Int) ≥ t then l
  else
    let pr := partition l f t.toNat
    quickSortAux (quickSortAux pr.1 f ((pr.2 : Int) - 1)) (pr.2 + 1) t
termination_by (t - f + 1).toNat
decreasing_by
  all_goals
    have hb : ∀ (p : α) n (l2 : List α) s j,
        s ≤ (partLoop p l2 s j n).2 ∧ (partLoop p l2 s j n).2 ≤ s + n := by
      intro p n
      induction n with
      | zero => intro l2 s j; simp [partLoop]
      | succ m ih =>
        intro l2 s j
        unfold partLoop
        by_cases h : getA l2 j ≤ p
        · rw [if_pos h]
          have := ih (swapA l2 s j) (s + 1) (j + 1)
          omega
        · rw [if_neg h]
          have := ih l2 s (j + 1)
          omega
    have h1 : f ≤ (partition l f t.toNat).2 ∧
        (partition l f t.toNat).2 ≤ f + (t.toNat - f) := hb _ _ _ _ _
    omega

/-- Array::Sort(QUICK_SORT): quickSort(0, m_used - 1). -/
def quickSort (l : List α) : List α :=
  quickSortAux l 0 ((l.length : Int) - 1)

/-- Array::dynamicSort: merge sort above 64 elements, insertion sort
otherwise (inheriting insertionSort's undefined executions). -/
def dynamicSort (l : List α) : Option (List α) :=
  if l.length > 64 then some (mergeSortRec l) else insertionSort l

/-- The algorithms::Sort enumeration. -/
inductive SortAlgorithm | DYNAMIC | INSERTION_SORT | QUICK_SORT | MERGE_SORT
deriving DecidableEq

/-- The dispatch switch of Array::Sort restricted to the live contents;
none exactly on the executions whose outcome the source leaves
undefined. -/
def SortRun (l : List α) : SortAlgorithm → Option (List α)
  | SortAlgorithm.DYNAMIC => dynamicSort l
  | SortAlgorithm.INSERTION_SORT => insertionSort l
  | SortAlgorithm.QUICK_SORT => some (quickSort l)
  | SortAlgorithm.MERGE_SORT => some (mergeSortRec l)

/-- Array::binarySearch (the constexpr branch for types with < and >,
which is the one selected for any linearly ordered element type).
The from argument is always non-negative (0 at the top, pivot + 1 below),
hence Nat; a_to can reach -1.  pivot = (a_from + a_to) / 2 with I64
division; both operands are non-negative whenever this line is reached,
so C truncation and Lean Int division agree. -/
def binarySearch (l : List α) (x : α) (f : Nat) (t : Int) : Int :=
  if (f : Int) = t then f
  else if (f : Int) > t then -1
  else
    let pivot : Int := ((f : Int) + t) / 2
    if x < getA l pivot.toNat then binarySearch l x f (pivot - 1)
    else if x > getA l pivot.toNat then binarySearch l x (pivot + 1).toNat t
    else pivot
termination_by (t - f + 1).toNat
decreasing_by
  · omega
  · omega

/-- Array::frontBackSearch: while from <= to, test data[from] then
data[to], then shrink the window from both ends. -/
def frontBackSearch (l : List α) (x : α) (f t : Int) : Int :=
  if f ≤ t then
    if getA l f.toNat = x then f
    else if getA l t.toNat = x then t
    else frontBackSearch l x (f + 1) (t - 1)
  else -1
termination_by (t - f + 1).toNat
decreasing_by omega

/-- The state of an ntl::Array: live prefix, capacity and the three flags.
m_used is the length of the live prefix. -/
structure ArrState (α : Type) where
  data : List α
  capacity : Nat
  sorted : Bool
  keep_sorted : Bool
  growable : Bool
deriving DecidableEq, Repr

/-- The Array constructor: VERIFY(m_capacity > 0); the fresh array is
empty and flagged sorted. -/
def mkArray (cap : Nat) (ks g : Bool) : Option (ArrState α) :=
  if cap = 0 then none
  else some ⟨[], cap, true, ks, g⟩

/-- Array::Insert(const T&): grow (capacity * 2) when growable and full,
VERIFY(m_used < m_capacity), append at m_used, then insertionSort (which
sets m_sorted) when keep_sorted — none when that sort's scan reads
m_data[-1] — else clear m_sorted; returns m_used - 1 after the
increment, i.e. the pre-insert used count. -/
def Insert (st : ArrState α) (x : α) : Option (ArrState α × Nat) :=
  let st1 := if st.growable ∧ st.data.length ≥ st.capacity then
      { st with capacity := st.capacity * 2 }
    else st
  if st1.data.length < st1.capacity then
    let d := st1.data ++ [x]
    if st.keep_sorted then
      (insertionSort d).map
        fun d2 => ({ st1 with data := d2, sorted := true }, d.length - 1)
    else
      some ({ st1 with data := d, sorted := false }, d.length - 1)
  else none

/-- Array::Insert(const T&, Size): VERIFY(a_index <= m_used); grow when
a_index >= m_capacity and growable; VERIFY(a_index < m_capacity); shift
the suffix right by one (`for i = m_used; i > a_index; --i`) and write at
a_index — on the live prefix this is exactly take/insert/drop — then the
same sortedness handling as the append overload.  (When m_used equals
m_capacity the source's shift loop writes one slot past the allocation;
that memory-level overrun is invisible at the level of the live
sequence.) -/
def InsertAt (st : ArrState α) (x : α) (idx : Nat) : Option (ArrState α) :=
  if idx ≤ st.data.length then
    let st1 := if idx ≥ st.capacity ∧ st.growable then
        { st with capacity := st.capacity * 2 }
      else st
    if idx < st1.capacity then
      let d := st1.data.take idx ++ x :: st1.data.drop idx
      if st.keep_sorted then
        (insertionSort d).map fun d2 => { st1 with data := d2, sorted := true }
      else
        some { st1 with data := d, sorted := false }
    else none
  else none

/-- Array::Find(const T&): -1 on an empty array, binary search over
[0, m_used - 1] when m_sorted, front-back search otherwise. -/
def Find (st : ArrState α) (x : α) : Int :=
  if st.data.length = 0 then -1
  else if st.sorted then binarySearch st.data x 0 ((st.data.length : Int) - 1)
  else frontBackSearch st.data x 0 ((st.data.length : Int) - 1)

/-- Array::GetSubArray(a_from, a_to): VERIFY(a_from < a_to),
VERIFY(a_from < m_used), VERIFY(a_to < m_used); the result is constructed
with capacity a_to - a_from and — as in the source, which passes m_sorted
for the constructor's a_keep_sorted parameter — keep_sorted = m_sorted;
the copy loop takes the elements of [a_from, a_to). -/
def GetSubArray (st : ArrState α) (f t : Nat) : Option (ArrState α) :=
  if f < t ∧ f < st.data.length ∧ t < st.data.length then
    some { data := (st.data.drop f).take (t - f), capacity := t - f,
           sorted := st.sorted, keep_sorted := st.sorted,
           growable := st.growable }
  else none

/-- The reference front-to-back linear scan that C5 compares Find
against.  Modelled from the spec: the first index holding the element,
scanning from index 0, or -1 if absent. -/
def linearScan (l : List α) (x : α) : Int :=
  let i := l.findIdx (· = x)
  if i < l.length then i else -1

end NtlArr

namespace NtlMap

variable {κ ν : Type} [DecidableEq κ] [Inhabited ν]

/-- The state of an ntl::Map: one slot per capacity index, each either
unused (none) or a used (key, value) entry; m_capacity is the slot count,
m_used the number of used slots.  The hash function is a parameter of the
operations, standing for keyToIndex's dispatch: identity for integral
keys, the selected byte hash (FNV-1a / DJB2 / SDBM) for string keys. -/
structure MapState (κ ν : Type) where
  entries : List (Option (κ × ν))
  growable : Bool
deriving DecidableEq, Repr

/-- m_capacity. -/
def capacity (m : MapState κ ν) : Nat := m.entries.length

/-- m_used: the source maintains this counter alongside the table; it
always equals the number of used slots, which the model takes as the
definition. -/
def mUsed (m : MapState κ ν) : Nat := m.entries.countP (·.isSome)

/-- The Map constructor: all slots unused. -/
def mkMap (cap : Nat) (g : Bool) : MapState κ ν :=
  ⟨List.replicate cap none, g⟩

/-- Map::hashDJB2 over the bytes of the key (the loop runs to the NUL,
so the list holds the bytes before it); U64 arithmetic is mod 2^64. -/
def hashDJB2 (key : List Nat) : Nat :=
  key.foldl (fun h c => (h * 33 + c) % 2 ^ 64) 5381

/-- Map::hashSDBM: hash = c + (hash << 6) + (hash << 16) - hash in U64;
the minuend dominates the subtrahend, so plain subtraction before the
2^64 reduction is exact.  The result is masked to 63 bits and forced
odd. -/
def hashSDBM (key : List Nat) : Nat :=
  Nat.lor ((key.foldl (fun h c => (c + h * 64 + h * 65536 - h) % 2 ^ 64) 0)
    % 2 ^ 63) 1

/-- Map::hashFNV1a in U64 arithmetic. -/
def hashFNV1a (key : List Nat) : Nat :=
  key.foldl (fun h c => ((Nat.xor h c) * 1099511628211) % 2 ^ 64)
    (14695981039346656037 % 2 ^ 64)

/-- The algorithms::Hash enumeration. -/
inductive HashAlgorithm | FNV1a | DJB2 | SDBM
deriving DecidableEq

/-- Map::calculateHash dispatch. -/
def calculateHash : HashAlgorithm → List Nat → Nat
  | HashAlgorithm.FNV1a => hashFNV1a
  | HashAlgorithm.DJB2 => hashDJB2
  | HashAlgorithm.SDBM => hashSDBM

/-- The probe loop of Map::find: walk from pos, stepping (pos+1) mod
capacity, stopping at the first unused slot (not found) or the first slot
whose key compares equal (found, returning the slot index).  fuel bounds
the walk by the capacity: within capacity steps every slot is visited
once; when the table is full and the key absent the source loops forever,
which the model maps to none. -/
def probeFind (entries : List (Option (κ × ν))) (k : κ) :
    Nat → Nat → Option Nat
  | _, 0 => none
  | pos, fuel + 1 =>
    match entries.getD pos none with
    | none => none
    | some e =>
      if e.1 = k then some pos
      else probeFind entries k ((pos + 1) % entries.length) fuel

/-- Map::find(a_key): probe from keyToIndex(key) = hash(key) mod
capacity; returns the slot of the entry, or none (nullptr). -/
def findSlot (hash : κ → Nat) (m : MapState κ ν) (k : κ) : Option Nat :=
  probeFind m.entries k (hash k % m.entries.length) m.entries.length

/-- Map::Get: VERIFY(entry) aborts when the key is absent (none). -/
def Get (hash : κ → Nat) (m : MapState κ ν) (k : κ) : Option ν :=
  (findSlot hash m k).bind fun i => (m.entries.getD i none).map (·.2)

/-- Map::Exists: find(a_key) converted to a boolean. -/
def ExistsKey (hash : κ → Nat) (m : MapState κ ν) (k : κ) : Bool :=
  (findSlot hash m k).isSome

/-- The probe loop of Map::Insert: walk from the home slot; an unused
slot receives the new entry (m_used grows by one), a slot with an equal
key is overwritten in place (the source assigns only the value; as the
keys are equal, writing the pair (k, v) is the same slot content). -/
def probeInsert (entries : List (Option (κ × ν))) (k : κ) (v : ν) :
    Nat → Nat → Option (List (Option (κ × ν)))
  | _, 0 => none
  | pos, fuel + 1 =>
    match entries.getD pos none with
    | none => some (entries.set pos (some (k, v)))
    | some e =>
      if e.1 = k then some (entries.set pos (some (k, v)))
      else probeInsert entries k v ((pos + 1) % entries.length) fuel

/-- The rehash placement loop of Map::Resize: identical walk but with no
key-equality check — it stops only at an unused slot. -/
def probePlace (entries : List (Option (κ × ν))) (k : κ) (v : ν) :
    Nat → Nat → Option (List (Option (κ × ν)))
  | _, 0 => none
  | pos, fuel + 1 =>
    match entries.getD pos none with
    | none => some (entries.set pos (some (k, v)))
    | some _ => probePlace entries k v ((pos + 1) % entries.length) fuel

/-- Map::Resize(a_new_capacity): VERIFY(new >= used), VERIFY(new >
capacity); allocate a blank table and re-place every used entry in slot
order at the first free slot from its new home index. -/
def Resize (hash : κ → Nat) (m : MapState κ ν) (newCap : Nat) :
    Option (MapState κ ν) :=
  if newCap ≥ mUsed m ∧ newCap > capacity m then
    (m.entries.foldl
      (fun acc e =>
        match acc, e with
        | none, _ => none
        | some es, none => some es
        | some es, some kv =>
          probePlace es kv.1 kv.2 (hash kv.1 % es.length) es.length)
      (some (List.replicate newCap (none : Option (κ × ν))))).map
      fun es => { m with entries := es }
  else none

/-- The growth test of Map::Insert: m_used >= m_capacity * m_grow_factor
with the default grow factor 0.7 (a Float in the source; the model uses
the exact rational 7/10 — the claims proved below do not depend on the
exact threshold). -/
def growCond (m : MapState κ ν) : Prop := 10 * mUsed m ≥ 7 * capacity m

instance (m : MapState κ ν) : Decidable (growCond m) := by
  unfold growCond
  infer_instance

/-- The step function of the Resize re-placement fold, named so the
fold can be reasoned about one entry at a time; `Resize_fold` below
states that Resize is literally this fold. -/
def placeStep (hash : κ → Nat) (acc : Option (List (Option (κ × ν))))
    (e : Option (κ × ν)) : Option (List (Option (κ × ν))) :=
  match acc, e with
  | none, _ => none
  | some es, none => some es
  | some es, some kv =>
    probePlace es kv.1 kv.2 (hash kv.1 % es.length) es.length

/-- Map::Insert(a_key, a_value): resize to double capacity first when
growable and at the load threshold, then run the insert probe. -/
def Insert (hash : κ → Nat) (m : MapState κ ν) (k : κ) (v : ν) :
    Option (MapState κ ν) :=
  (if m.growable ∧ growCond m then Resize hash m (2 * capacity m)
   else some m).bind fun m1 =>
    (probeInsert m1.entries k v (hash k % m1.entries.length)
      m1.entries.length).map fun es => { m1 with entries := es }

/-- Map::Remove(a_key): the removal loop walks exactly like find; a found
slot is marked unused (no probe-chain repair), an exhausted probe hits
VERIFY(false) (none). -/
def Remove (hash : κ → Nat) (m : MapState κ ν) (k : κ) :
    Option (MapState κ ν) :=
  (findSlot hash m k).map fun i => { m with entries := m.entries.set i none }

/-- Map::At(a_key): find; when absent, Insert(key, value-initialized
default) first.  The returned reference is to the entry's value; the
state transition is what matters here. -/
def At (hash : κ → Nat) (m : MapState κ ν) (k : κ) :
    Option (MapState κ ν) :=
  match findSlot hash m k with
  | some _ => some m
  | none => Insert hash m k default

/-- Slot i of the table holds key k (for some value). -/
def HasKey (es : List (Option (κ × ν))) (k : κ) : Prop :=
  ∃ i v, es.getD i none = some (k, v)

/-- The well-formedness invariant of the open-addressed table: every
used slot is found again by the probe walk started from its key's home
index with a full table of fuel.  This is the property Map::Remove
breaks and every other mutating operation preserves. -/
def SlotInv (hash : κ → Nat) (es : List (Option (κ × ν))) : Prop :=
  ∀ i kv, es.getD i none = some kv →
    probeFind es kv.1 (hash kv.1 % es.length) es.length = some i

/-- Map-level invariant: positive capacity and a well-formed table. -/
def Inv (hash : κ → Nat) (m : MapState κ ν) : Prop :=
  0 < capacity m ∧ SlotInv hash m.entries

/-- Map states reachable from a freshly constructed map by completed
Insert, At and Resize calls (no Remove). -/
inductive ReachableNR (hash : κ → Nat) : MapState κ ν → Prop
  | mk (cap : Nat) (g : Bool) (h : 0 < cap) :
      ReachableNR hash (mkMap cap g)
  | ins {m m2 : MapState κ ν} {k : κ} {v : ν} : ReachableNR hash m →
      Insert hash m k v = some m2 → ReachableNR hash m2
  | acc {m m2 : MapState κ ν} {k : κ} : ReachableNR hash m →
      At hash m k = some m2 → ReachableNR hash m2
  | res {m m2 : MapState κ ν} {c : Nat} : ReachableNR hash m →
      Resize hash m c = some m2 → ReachableNR hash m2

end NtlMap

namespace NtlSL

/-- The state of an ntl::SharedLock: the three fields of the class
(`int m_reader_count; int m_writer_count; bool m_is_writing`), plus two
ghost counters tracking how many client threads are currently inside a
read section (between a completed StartRead and its EndRead) and inside
a write section (between a completed StartWrite and its EndWrite).  The
ghost counters only restrict End calls to threads that performed the
matching Start, i.e. to protocol-respecting clients; they shadow no
lock data. -/
structure SLState where
  reader_count : Int
  writer_count : Int
  is_writing : Bool
  nReaders : Nat
  nWriters : Nat
  deriving DecidableEq, Repr

/-- The four mutex-protected bodies. -/
inductive SLLabel
  | startRead
  | startWrite
  | endRead
  | endWrite
  deriving DecidableEq, Repr

/-- One atomic step per mutex-protected body, a Start step being
enabled exactly when its wait condition is false:
StartRead waits `while (m_writer_count != 0)` then does
`++m_reader_count`; StartWrite does `++m_writer_count`, waits
`while (m_reader_count != 0 || m_is_writing)`, then sets
`m_is_writing = true` (the wait condition does not read
m_writer_count, so the atomic step orders the increment with the
guard); EndRead does `--m_reader_count`; EndWrite does
`--m_writer_count; m_is_writing = false` (the condition-variable
broadcasts change no state).  End steps additionally require a thread
inside the matching section. -/
inductive SLStep : SLState → SLLabel → SLState → Prop
  | startRead (s : SLState) (h : s.writer_count = 0) :
      SLStep s .startRead { s with
        reader_count := s.reader_count + 1
        nReaders := s.nReaders + 1 }
  | startWrite (s : SLState) (h1 : s.reader_count = 0)
      (h2 : s.is_writing = false) :
      SLStep s .startWrite { s with
        writer_count := s.writer_count + 1
        is_writing := true
        nWriters := s.nWriters + 1 }
  | endRead (s : SLState) (h : 1 ≤ s.nReaders) :
      SLStep s .endRead { s with
        reader_count := s.reader_count - 1
        nReaders := s.nReaders - 1 }
  | endWrite (s : SLState) (h : 1 ≤ s.nWriters) :
      SLStep s .endWrite { s with
        writer_count := s.writer_count - 1
        is_writing := false
        nWriters := s.nWriters - 1 }

/-- The constructor's state: all counters zero, not writing. -/
def SLInit : SLState := ⟨0, 0, false, 0, 0⟩

/-- States reachable from a fresh lock by protocol-respecting
threads. -/
inductive SLReachable : SLState → Prop
  | init : SLReachable SLInit
  | step {s s2 : SLState} {l : SLLabel} : SLReachable s →
      SLStep s l s2 → SLReachable s2

/-- The inductive invariant: the counters agree with the ghost thread
counts, at most one writer holds the lock, is_writing marks exactly the
writer-held states, and writing excludes readers. -/
def SLInv (s : SLState) : Prop :=
  s.reader_count = (s.nReaders : Int) ∧
  s.writer_count = (s.nWriters : Int) ∧
  s.nWriters ≤ 1 ∧
  (s.is_writing = true ↔ s.nWriters = 1) ∧
  (s.is_writing = true → s.reader_count = 0)

end NtlSL

namespace NtlStr

end NtlStr

namespace NtlStr

/-- C10: for a non-empty String s and a character c that does not occur in
s, Replace(c, NUL) — and therefore Remove(c), which is defined as exactly
that call — still decrements the length by one, deleting the final
character of s instead of leaving s unchanged. -/
theorem c10_replaceChar_absent_truncates (s : List Byte) (c : Byte)
    (hne : s ≠ []) (habs : c ∉ s) :
    ReplaceChar s c 0 = some s.dropLast ∧ Remove s c = some s.dropLast ∧
    s.dropLast.length + 1 = s.length := by
  have hlen : 0 < s.length := List.length_pos.mpr hne
  have hidx : s.findIdx (fun x => x = c) = s.length := by
    rw [List.findIdx_eq_length]
    intro x hx
    simp only [decide_eq_false_iff_not]
    intro hxc
    exact habs (hxc ▸ hx)
  have hmain : ReplaceChar s c 0 = some s.dropLast := by
    unfold ReplaceChar
    rw [if_pos rfl, if_neg (by omega)]
    simp only [hidx]
    rw [List.take_length, List.drop_eq_nil_of_le (by omega), List.append_nil,
      ← List.dropLast_eq_take]
  refine ⟨hmain, hmain, ?_⟩
  rw [List.length_dropLast]
  omega

theorem c10_replaceChar_absent_truncates_witness :
    ReplaceChar [10, 20] 5 0 = some (List.dropLast [10, 20]) ∧
    Remove [10, 20] 5 = some (List.dropLast [10, 20]) ∧
    (List.dropLast [10, 20]).length + 1 = 2 :=
  c10_replaceChar_absent_truncates [10, 20] 5 (by decide) (by decide)

end NtlStr

namespace NtlArr

variable {α : Type} [LinearOrder α] [Inhabited α]

theorem getA_eq_getElem (l : List α) (i : Nat) (h : i < l.length) :
    getA l i = l[i] := List.getD_eq_getElem l default h

theorem swapA_length (l : List α) (i j : Nat) :
    (swapA l i j).length = l.length := by
  simp [swapA]

theorem getA_set_self (l : List α) (i : Nat) (a : α) (h : i < l.length) :
    getA (l.set i a) i = a := by
  unfold getA
  rw [List.getD_eq_getElem _ _ (by simpa using h), List.getElem_set_self]

theorem getA_set_ne (l : List α) (i idx : Nat) (a : α) (h : idx ≠ i) :
    getA (l.set i a) idx = getA l idx := by
  unfold getA
  rcases Nat.lt_or_ge idx l.length with hl | hl
  · rw [List.getD_eq_getElem _ _ (by simpa using hl),
      List.getElem_set_ne (fun he => h he.symm), ← List.getD_eq_getElem l default hl]
  · rw [List.getD_eq_default _ _ (by simpa using hl), List.getD_eq_default _ _ hl]

theorem swapA_perm (l : List α) (i j : Nat) (hi : i < l.length)
    (hj : j < l.length) : (swapA l i j).Perm l := by
  rw [List.perm_iff_count]
  intro a
  unfold swapA
  rw [getA_eq_getElem l i hi, getA_eq_getElem l j hj]
  have hi2 : i < (l.set i l[j]).length := by simpa using hi
  have hj2 : j < (l.set i l[j]).length := by simpa using hj
  rw [List.count_set _ _ _ _ hj2, List.count_set _ _ _ _ hi]
  by_cases hij : i = j
  · subst hij
    simp only [List.getElem_set_self hi2]
    by_cases e : l[i] == a
    · have hmem : a ∈ l := by
        have := List.getElem_mem hi
        rwa [eq_of_beq e] at this
      have hc : 0 < List.count a l := List.count_pos_iff.mpr hmem
      simp only [e, if_pos]
      omega
    · simp [e]
  · have hne : (l.set i l[j])[j] = l[j] := List.getElem_set_ne hij _
    rw [hne]
    by_cases e1 : l[i] == a
    · have hmem : a ∈ l := by
        have := List.getElem_mem hi
        rwa [eq_of_beq e1] at this
      have hc : 0 < List.count a l := List.count_pos_iff.mpr hmem
      by_cases e2 : l[j] == a <;> simp only [e1, e2, if_pos, if_neg] <;> simp <;> omega
    · by_cases e2 : l[j] == a
      · have hmem : a ∈ l := by
          have := List.getElem_mem hj
          rwa [eq_of_beq e2] at this
        have hc : 0 < List.count a l := List.count_pos_iff.mpr hmem
        simp only [e1, e2] <;> simp <;> omega
      · simp [e1, e2]

theorem getA_swapA_fst (l : List α) (i j : Nat) (hi : i < l.length)
    (hj : j < l.length) : getA (swapA l i j) i = getA l j := by
  unfold swapA
  by_cases hij : i = j
  · subst hij
    rw [getA_set_self _ _ _ (by simpa using hi)]
  · rw [getA_set_ne _ _ _ _ hij, getA_set_self _ _ _ hi]

theorem getA_swapA_snd (l : List α) (i j : Nat) (hj : j < l.length) :
    getA (swapA l i j) j = getA l i := by
  unfold swapA
  rw [getA_set_self _ _ _ (by simpa using hj)]

theorem getA_swapA_other (l : List α) (i j idx : Nat) (h1 : idx ≠ i)
    (h2 : idx ≠ j) : getA (swapA l i j) idx = getA l idx := by
  unfold swapA
  rw [getA_set_ne _ _ _ _ h2, getA_set_ne _ _ _ _ h1]


theorem mergeRun_perm : ∀ (xs ys : List α), (mergeRun xs ys).Perm (xs ++ ys) := by
  intro xs
  induction xs with
  | nil => intro ys; simp [mergeRun]
  | cons x xs ihx =>
    intro ys
    induction ys with
    | nil => simp [mergeRun]
    | cons y ys ihy =>
      simp only [mergeRun]
      by_cases h : x ≤ y
      · rw [if_pos h]
        exact List.Perm.cons x (ihx (y :: ys))
      · rw [if_neg h]
        refine (List.Perm.cons y ihy).trans ?_
        have hm : ((x :: xs) ++ ys).Perm (x :: (xs ++ ys)) := by simp
        refine (List.Perm.cons y hm).trans ?_
        refine (List.Perm.swap x y (xs ++ ys)).trans ?_
        have : (x :: xs) ++ (y :: ys) = x :: (xs ++ y :: ys) := by simp
        rw [this]
        exact List.Perm.cons x List.perm_middle.symm

theorem mergeRun_mem (xs ys : List α) (a : α) :
    a ∈ mergeRun xs ys ↔ a ∈ xs ∨ a ∈ ys := by
  rw [(mergeRun_perm xs ys).mem_iff, List.mem_append]

theorem mergeRun_sorted : ∀ (xs ys : List α), xs.Sorted (· ≤ ·) →
    ys.Sorted (· ≤ ·) → (mergeRun xs ys).Sorted (· ≤ ·) := by
  intro xs
  induction xs with
  | nil => intro ys _ hy; simpa [mergeRun] using hy
  | cons x xs ihx =>
    intro ys hx hy
    induction ys with
    | nil => simpa [mergeRun] using hx
    | cons y ys ihy =>
      rw [List.sorted_cons] at hx hy
      obtain ⟨hx1, hx2⟩ := hx
      obtain ⟨hy1, hy2⟩ := hy
      simp only [mergeRun]
      by_cases h : x ≤ y
      · rw [if_pos h]
        rw [List.sorted_cons]
        constructor
        · intro b hb
          rw [mergeRun_mem] at hb
          rcases hb with hb | hb
          · exact hx1 b hb
          · rcases List.mem_cons.mp hb with rfl | hb2
            · exact h
            · exact le_trans h (hy1 b hb2)
        · exact ihx (y :: ys) hx2 (List.sorted_cons.mpr ⟨hy1, hy2⟩)
      · rw [if_neg h]
        have hyx : y ≤ x := le_of_not_le h
        rw [List.sorted_cons]
        constructor
        · intro b hb
          rw [mergeRun_mem] at hb
          rcases hb with hb | hb
          · rcases List.mem_cons.mp hb with rfl | hb2
            · exact hyx
            · exact le_trans hyx (hx1 b hb2)
          · exact hy1 b hb
        · exact ihy hy2

theorem mergeSortRec_perm_sorted : ∀ (l : List α),
    (mergeSortRec l).Perm l ∧ (mergeSortRec l).Sorted (· ≤ ·) := by
  have main : ∀ (n : Nat) (l : List α), l.length = n →
      (mergeSortRec l).Perm l ∧ (mergeSortRec l).Sorted (· ≤ ·) := by
    intro n
    induction n using Nat.strong_induction_on with
    | _ n ih =>
      intro l hn
      by_cases h : l.length ≤ 1
      · rw [mergeSortRec, dif_pos h]
        refine ⟨List.Perm.refl l, ?_⟩
        match l, h with
        | [], _ => exact List.sorted_nil
        | [a], _ => exact List.sorted_singleton a
      · rw [mergeSortRec, dif_neg h]
        have h2 : 2 ≤ l.length := by omega
        have hlt1 : (l.take (l.length / 2)).length < n := by
          simp only [List.length_take]
          omega
        have hlt2 : (l.drop (l.length / 2)).length < n := by
          simp only [List.length_drop]
          omega
        obtain ⟨hp1, hs1⟩ := ih _ hlt1 (l.take (l.length / 2)) rfl
        obtain ⟨hp2, hs2⟩ := ih _ hlt2 (l.drop (l.length / 2)) rfl
        constructor
        · refine (mergeRun_perm _ _).trans ?_
          refine (hp1.append hp2).trans ?_
          rw [List.take_append_drop]
        · exact mergeRun_sorted _ _ hs1 hs2
  intro l
  exact main l.length l rfl


theorem partLoop_spec (p : α) : ∀ (n : Nat) (l : List α) (s j : Nat),
    s ≤ j → j + n ≤ l.length →
    (∀ idx, s ≤ idx → idx < j → p < getA l idx) →
    (partLoop p l s j n).1.length = l.length ∧
    s ≤ (partLoop p l s j n).2 ∧ (partLoop p l s j n).2 ≤ j + n ∧
    (partLoop p l s j n).1.Perm l ∧
    (∀ idx, idx < s → getA (partLoop p l s j n).1 idx = getA l idx) ∧
    (∀ idx, j + n ≤ idx → getA (partLoop p l s j n).1 idx = getA l idx) ∧
    (∀ idx, s ≤ idx → idx < (partLoop p l s j n).2 →
      getA (partLoop p l s j n).1 idx ≤ p) ∧
    (∀ idx, (partLoop p l s j n).2 ≤ idx → idx < j + n →
      p < getA (partLoop p l s j n).1 idx) ∧
    (∀ Q : α → Prop, (∀ idx, s ≤ idx → idx < j + n → Q (getA l idx)) →
      ∀ idx, s ≤ idx → idx < j + n → Q (getA (partLoop p l s j n).1 idx)) := by
  intro n
  induction n with
  | zero =>
    intro l s j hsj hlen hzone
    have hred : partLoop p l s j 0 = (l, s) := rfl
    rw [hred]
    exact ⟨rfl, Nat.le_refl s, by omega, List.Perm.refl l,
      fun _ _ => rfl, fun _ _ => rfl,
      fun idx h1 h2 => absurd (lt_of_le_of_lt h1 h2) (lt_irrefl s),
      fun idx h1 h2 => hzone idx h1 (by omega),
      fun Q hQ idx h1 h2 => hQ idx h1 h2⟩
  | succ n ih =>
    intro l s j hsj hlen hzone
    have hjlen : j < l.length := by omega
    have hslen : s < l.length := by omega
    by_cases hc : getA l j ≤ p
    · have hred : partLoop p l s j (n + 1) =
          partLoop p (swapA l s j) (s + 1) (j + 1) n := by
        show (if getA l j ≤ p then partLoop p (swapA l s j) (s + 1) (j + 1) n
          else partLoop p l s (j + 1) n) = _
        rw [if_pos hc]
      rw [hred]
      have hzone2 : ∀ idx, s + 1 ≤ idx → idx < j + 1 →
          p < getA (swapA l s j) idx := by
        intro idx h1 h2
        rcases Nat.lt_or_ge idx j with hlt | hge
        · rw [getA_swapA_other l s j idx (by omega) (by omega)]
          exact hzone idx (by omega) hlt
        · have hidx : idx = j := by omega
          rw [hidx, getA_swapA_snd l s j hjlen]
          exact hzone s (Nat.le_refl s) (by omega)
      obtain ⟨ihA, ihB, ihC, ihP, ihD, ihE, ihF, ihG, ihQ⟩ :=
        ih (swapA l s j) (s + 1) (j + 1) (by omega)
          (by rw [swapA_length]; omega) hzone2
      have hswlen : (swapA l s j).length = l.length := swapA_length l s j
      refine ⟨by rw [ihA, hswlen], by omega, by omega,
        ihP.trans (swapA_perm l s j hslen hjlen), ?_, ?_, ?_, ?_, ?_⟩
      · intro idx hidx
        rw [ihD idx (by omega), getA_swapA_other l s j idx (by omega) (by omega)]
      · intro idx hidx
        rw [ihE idx (by omega), getA_swapA_other l s j idx (by omega) (by omega)]
      · intro idx h1 h2
        rcases Nat.lt_or_ge idx (s + 1) with hlt | hge
        · have hidx : idx = s := by omega
          rw [hidx, ihD s (by omega), getA_swapA_fst l s j hslen hjlen]
          exact hc
        · exact ihF idx hge h2
      · intro idx h1 h2
        exact ihG idx h1 (by omega)
      · intro Q hQ idx h1 h2
        have hQ2 : ∀ idx2, s + 1 ≤ idx2 → idx2 < (j + 1) + n →
            Q (getA (swapA l s j) idx2) := by
          intro idx2 g1 g2
          by_cases hj2 : idx2 = j
          · rw [hj2, getA_swapA_snd l s j hjlen]
            exact hQ s (Nat.le_refl s) (by omega)
          · rw [getA_swapA_other l s j idx2 (by omega) hj2]
            exact hQ idx2 (by omega) (by omega)
        rcases Nat.lt_or_ge idx (s + 1) with hlt | hge
        · have hidx : idx = s := by omega
          rw [hidx, ihD s (by omega), getA_swapA_fst l s j hslen hjlen]
          exact hQ j hsj (by omega)
        · exact ihQ Q hQ2 idx hge (by omega)
    · have hred : partLoop p l s j (n + 1) = partLoop p l s (j + 1) n := by
        show (if getA l j ≤ p then partLoop p (swapA l s j) (s + 1) (j + 1) n
          else partLoop p l s (j + 1) n) = _
        rw [if_neg hc]
      rw [hred]
      have hzone2 : ∀ idx, s ≤ idx → idx < j + 1 → p < getA l idx := by
        intro idx h1 h2
        rcases Nat.lt_or_ge idx j with hlt | hge
        · exact hzone idx h1 hlt
        · have hidx : idx = j := by omega
          rw [hidx]
          exact lt_of_not_le hc
      obtain ⟨ihA, ihB, ihC, ihP, ihD, ihE, ihF, ihG, ihQ⟩ :=
        ih l s (j + 1) (by omega) (by omega) hzone2
      exact ⟨ihA, ihB, by omega, ihP, ihD,
        fun idx hidx => ihE idx (by omega), ihF,
        fun idx h1 h2 => ihG idx h1 (by omega),
        fun Q hQ idx h1 h2 => ihQ Q
          (fun idx2 g1 g2 => hQ idx2 g1 (by omega)) idx h1 (by omega)⟩

theorem partition_spec (l : List α) (f t : Nat) (hft : f ≤ t)
    (ht : t < l.length) :
    (partition l f t).1.length = l.length ∧
    f ≤ (partition l f t).2 ∧ (partition l f t).2 ≤ t ∧
    (partition l f t).1.Perm l ∧
    (∀ idx, idx < f → getA (partition l f t).1 idx = getA l idx) ∧
    (∀ idx, t < idx → getA (partition l f t).1 idx = getA l idx) ∧
    (∀ idx, f ≤ idx → idx < (partition l f t).2 →
      getA (partition l f t).1 idx ≤ getA l t) ∧
    (∀ idx, (partition l f t).2 < idx → idx ≤ t →
      getA l t < getA (partition l f t).1 idx) ∧
    getA (partition l f t).1 (partition l f t).2 = getA l t ∧
    (∀ Q : α → Prop, (∀ idx, f ≤ idx → idx ≤ t → Q (getA l idx)) →
      ∀ idx, f ≤ idx → idx ≤ t → Q (getA (partition l f t).1 idx)) := by
  obtain ⟨hA, hB, hC, hP, hD, hE, hF, hG, hQp⟩ :=
    partLoop_spec (getA l t) (t - f) l f f (Nat.le_refl f) (by omega)
      (fun idx h1 h2 => by omega)
  set r := partLoop (getA l t) l f f (t - f) with hr
  have hfin : partition l f t = (swapA r.1 r.2 t, r.2) := rfl
  rw [hfin]
  simp only
  have hkr : r.2 ≤ t := by omega
  have hrlen : r.1.length = l.length := hA
  have hklen : r.2 < l.length := by omega
  have hk1 : r.2 < r.1.length := by omega
  have ht1 : t < r.1.length := by omega
  have hpivot : getA r.1 t = getA l t := hE t (by omega)
  refine ⟨by rw [swapA_length, hrlen], hB, hkr,
    (swapA_perm r.1 r.2 t hk1 ht1).trans hP, ?_, ?_, ?_, ?_, ?_, ?_⟩
  · intro idx hidx
    rw [getA_swapA_other r.1 r.2 t idx (by omega) (by omega)]
    exact hD idx (by omega)
  · intro idx hidx
    rw [getA_swapA_other r.1 r.2 t idx (by omega) (by omega)]
    exact hE idx (by omega)
  · intro idx h1 h2
    rw [getA_swapA_other r.1 r.2 t idx (by omega) (by omega)]
    exact hF idx h1 h2
  · intro idx h1 h2
    rcases Nat.lt_or_ge idx t with hlt | hge
    · rw [getA_swapA_other r.1 r.2 t idx (by omega) (by omega)]
      exact hG idx (by omega) (by omega)
    · have hidx : idx = t := by omega
      rw [hidx, getA_swapA_snd r.1 r.2 t ht1]
      -- after the final swap, position t holds the old r.1[r.2]; since
      -- r.2 < idx = t, slot r.2 was in the strictly-greater zone
      exact hG r.2 (Nat.le_refl _) (by omega)
  · rw [getA_swapA_fst r.1 r.2 t hk1 ht1, hpivot]
  · intro Q hQ idx h1 h2
    have hQloop : ∀ idx2, f ≤ idx2 → idx2 < f + (t - f) →
        Q (getA r.1 idx2) :=
      hQp Q (fun idx2 g1 g2 => hQ idx2 g1 (by omega))
    by_cases hik : idx = r.2
    · rw [hik, getA_swapA_fst r.1 r.2 t hk1 ht1, hpivot]
      exact hQ t hft (Nat.le_refl t)
    · by_cases hit : idx = t
      · rw [hit, getA_swapA_snd r.1 r.2 t ht1]
        rcases Nat.lt_or_ge r.2 t with hkt | hkt
        · exact hQloop r.2 hB (by omega)
        · have : r.2 = t := by omega
          rw [this, hpivot]
          exact hQ t hft (Nat.le_refl t)
      · rw [getA_swapA_other r.1 r.2 t idx hik hit]
        exact hQloop idx h1 (by omega)



theorem quickSortAux_spec : ∀ (m : Nat) (l : List α) (f : Nat) (t : Int),
    (t - f + 1).toNat = m → t < (l.length : Int) →
    (quickSortAux l f t).length = l.length ∧
    (quickSortAux l f t).Perm l ∧
    (∀ idx : Nat, ((idx : Int) < (f : Int) ∨ t < (idx : Int)) →
      getA (quickSortAux l f t) idx = getA l idx) ∧
    (∀ Q : α → Prop,
      (∀ idx : Nat, f ≤ idx → (idx : Int) ≤ t → Q (getA l idx)) →
      ∀ idx : Nat, f ≤ idx → (idx : Int) ≤ t →
        Q (getA (quickSortAux l f t) idx)) ∧
    (∀ i1 i2 : Nat, f ≤ i1 → i1 ≤ i2 → (i2 : Int) ≤ t →
      getA (quickSortAux l f t) i1 ≤ getA (quickSortAux l f t) i2) := by
  intro m
  induction m using Nat.strong_induction_on with
  | _ m ih =>
    intro l f t hm ht
    by_cases h0 : l.length = 0
    · have hl : l = [] := List.length_eq_zero.mp h0
      have hred : quickSortAux l f t = l := by
        conv_lhs => rw [quickSortAux]
        rw [if_pos h0]
      rw [hred]
      subst hl
      refine ⟨rfl, List.Perm.refl _, fun _ _ => rfl,
        fun Q hQ idx h1 h2 => hQ idx h1 h2, ?_⟩
      intro i1 i2 _ _ _
      simp [getA]
    · by_cases hft : (f : Int) ≥ t
      · have hred : quickSortAux l f t = l := by
          conv_lhs => rw [quickSortAux]
          rw [if_neg h0, if_pos hft]
        rw [hred]
        refine ⟨rfl, List.Perm.refl _, fun _ _ => rfl,
          fun Q hQ => hQ, ?_⟩
        intro i1 i2 h1 h2 h3
        have he : i1 = i2 := by omega
        rw [he]
      · push_neg at hft
        have htn : t.toNat < l.length := by omega
        have hftn : f ≤ t.toNat := by omega
        obtain ⟨pA, pB, pC, pP, pD, pE, pF, pG, pK, pQ⟩ :=
          partition_spec l f t.toNat hftn htn
        rcases hpq : partition l f t.toNat with ⟨l1, k⟩
        simp only [hpq] at pA pB pC pP pD pE pF pG pK pQ
        have hred : quickSortAux l f t =
            quickSortAux (quickSortAux l1 f ((k : Int) - 1)) (k + 1) t := by
          conv_lhs => rw [quickSortAux]
          rw [if_neg h0, if_neg (not_le.mpr hft)]
          simp only [hpq]
        rw [hred]
        set p := getA l t.toNat with hp
        have hmL : (((k : Int) - 1) - f + 1).toNat < m := by omega
        obtain ⟨LA, LP, LU, LQ, LS⟩ :=
          ih _ hmL l1 f ((k : Int) - 1) rfl (by rw [pA]; omega)
        set L := quickSortAux l1 f ((k : Int) - 1) with hL
        have hLlen : L.length = l.length := by rw [LA, pA]
        have hmR : (t - ((k : Nat) + 1 : Nat) + 1).toNat < m := by
          push_cast
          omega
        obtain ⟨RA, RP, RU, RQ, RS⟩ :=
          ih _ hmR L (k + 1) t rfl (by rw [hLlen]; omega)
        set R := quickSortAux L (k + 1) t with hR
        -- the pivot value sits at slot k in l1, L and R
        have hLk : getA L k = p := by
          rw [LU k (Or.inr (by omega)), pK]
        have hRk : getA R k = p := by
          rw [RU k (Or.inl (by push_cast; omega)), hLk]
        -- left zone: values at [f, k) stay at most p
        have hLle : ∀ idx, f ≤ idx → idx < k → getA L idx ≤ p := by
          intro idx g1 g2
          exact LQ (fun x => x ≤ p)
            (fun i3 g3 g4 => pF i3 g3 (by omega)) idx g1 (by omega)
        have hRle : ∀ idx, f ≤ idx → idx < k → getA R idx ≤ p := by
          intro idx g1 g2
          rw [RU idx (Or.inl (by push_cast; omega))]
          exact hLle idx g1 g2
        -- right zone: values at (k, t] stay strictly above p
        have hLgt : ∀ idx, k < idx → (idx : Int) ≤ t → p < getA L idx := by
          intro idx g1 g2
          rw [LU idx (Or.inr (by push_cast; omega))]
          exact pG idx g1 (by omega)
        have hRgt : ∀ idx, k < idx → (idx : Int) ≤ t → p < getA R idx := by
          intro idx g1 g2
          exact RQ (fun x => p < x)
            (fun idx2 g3 g4 => hLgt idx2 (by omega) g4) idx (by omega) g2
        refine ⟨by rw [RA, hLlen], RP.trans (LP.trans pP), ?_, ?_, ?_⟩
        · -- outside [f, t] nothing moves
          intro idx hout
          rcases hout with hlt | hgt
          · rw [RU idx (Or.inl (by push_cast; omega)),
              LU idx (Or.inl hlt), pD idx (by exact_mod_cast hlt)]
          · rw [RU idx (Or.inr hgt), LU idx (Or.inr (by omega)),
              pE idx (by omega)]
        · -- segment values satisfy any pointwise predicate they all had
          intro Q hQ idx h1 h2
          have hQ1 : ∀ idx2, f ≤ idx2 → (idx2 : Int) ≤ t →
              Q (getA l1 idx2) := by
            intro idx2 g1 g2
            exact pQ Q (fun i3 g3 g4 => hQ i3 g3 (by omega)) idx2 g1 (by omega)
          have hQ2 : ∀ idx2, f ≤ idx2 → (idx2 : Int) ≤ t →
              Q (getA L idx2) := by
            intro idx2 g1 g2
            rcases Nat.lt_or_ge idx2 k with hlt | hge
            · exact LQ Q (fun i3 g3 g4 => hQ1 i3 g3 (by omega))
                idx2 g1 (by omega)
            · rw [LU idx2 (Or.inr (by omega))]
              exact hQ1 idx2 g1 g2
          rcases Nat.lt_or_ge idx (k + 1) with hlt | hge
          · rw [RU idx (Or.inl (by push_cast; omega))]
            exact hQ2 idx h1 h2
          · exact RQ Q (fun i3 g3 g4 => hQ2 i3 (by omega) g4) idx hge h2
        · -- the segment [f, t] of the result is sorted
          intro i1 i2 h1 h2 h3
          rcases Nat.lt_or_ge i1 k with hi1 | hi1
          · rcases Nat.lt_or_ge i2 k with hi2 | hi2
            · -- both in the left part, which R leaves untouched
              rw [RU i1 (Or.inl (by push_cast; omega)),
                RU i2 (Or.inl (by push_cast; omega))]
              exact LS i1 i2 h1 h2 (by push_cast; omega)
            · rcases Nat.eq_or_lt_of_le hi2 with he | hgt2
              · rw [he] at hRk
                rw [hRk]
                exact hRle i1 h1 hi1
              · exact le_of_lt (lt_of_le_of_lt (hRle i1 h1 hi1)
                  (hRgt i2 hgt2 h3))
          · rcases Nat.eq_or_lt_of_le hi1 with he | hgt1
            · rcases Nat.eq_or_lt_of_le h2 with rfl | hlt2
              · exact le_refl _
              · rw [← he, hRk]
                exact le_of_lt (hRgt i2 (by omega) h3)
            · exact RS i1 i2 (by omega) h2 h3

theorem quickSort_perm (l : List α) : (quickSort l).Perm l := by
  unfold quickSort
  exact (quickSortAux_spec _ l 0 ((l.length : Int) - 1) rfl (by omega)).2.1

theorem quickSort_sorted (l : List α) : (quickSort l).Sorted (· ≤ ·) := by
  unfold quickSort
  obtain ⟨hA, _, _, _, hS⟩ :=
    quickSortAux_spec _ l 0 ((l.length : Int) - 1) rfl (by omega)
  rw [List.Sorted, List.pairwise_iff_getElem]
  intro i j g1 g2 g3
  have hij := hS i j (Nat.zero_le _) (by omega) (by omega)
  rwa [getA_eq_getElem _ i (by omega), getA_eq_getElem _ j (by omega)] at hij



theorem insInner_length : ∀ (pos : Nat) (l : List α) (temp : α)
    (l2 : List α), insInner l temp pos = some l2 → l2.length = l.length := by
  intro pos
  induction pos with
  | zero =>
    intro l temp l2 h
    simp [insInner] at h
  | succ p ih =>
    intro l temp l2 h
    simp only [insInner] at h
    by_cases hc : getA l p > temp
    · rw [if_pos hc] at h
      have := ih _ _ _ h
      simpa using this
    · rw [if_neg hc] at h
      obtain rfl := (Option.some_inj.mp h).symm
      simp

theorem insertionSortLoop_length : ∀ (fuel : Nat) (l : List α) (i : Nat)
    (l2 : List α), insertionSortLoop l i fuel = some l2 →
    l2.length = l.length := by
  intro fuel
  induction fuel with
  | zero =>
    intro l i l2 h
    have h2 : some l = some l2 := h
    rw [← Option.some_inj.mp h2]
  | succ n ih =>
    intro l i l2 h
    have h2 : (insInner l (getA l i) i).bind
        (fun l3 => insertionSortLoop l3 (i + 1) n) = some l2 := h
    rcases hin : insInner l (getA l i) i with _ | l3
    · rw [hin] at h2
      exact absurd h2 (by simp)
    · rw [hin, Option.some_bind] at h2
      rw [ih _ _ _ h2]
      exact insInner_length i l (getA l i) l3 hin

theorem insertionSort_length_some {l l2 : List α}
    (h : insertionSort l = some l2) : l2.length = l.length :=
  insertionSortLoop_length (l.length - 1) l 1 l2 h

/-- C3 (code defect): the sort algorithms do not all agree on every
input.  insertionSort's inner guard `m_data[j].value > temp.value &&
j >= 0` reads m_data[j] before testing j >= 0, so sorting [2, 1] with
INSERTION_SORT — or DYNAMIC, which dispatches to it at this size —
drives j to -1 and reads m_data[-1] out of bounds: the execution has no
defined result (none in the model).  MERGE_SORT and QUICK_SORT sort the
same input correctly. -/
theorem c3_insertion_sort_oob :
    SortRun ([2, 1] : List Int) SortAlgorithm.INSERTION_SORT = none ∧
    SortRun ([2, 1] : List Int) SortAlgorithm.DYNAMIC = none ∧
    SortRun ([2, 1] : List Int) SortAlgorithm.MERGE_SORT = some [1, 2] ∧
    SortRun ([2, 1] : List Int) SortAlgorithm.QUICK_SORT = some [1, 2] := by
  have hm0 := mergeSortRec_perm_sorted ([2, 1] : List Int)
  have hm : mergeSortRec ([2, 1] : List Int) = [1, 2] :=
    List.eq_of_perm_of_sorted (hm0.1.trans (by decide)) hm0.2 (by decide)
  have hq : quickSort ([2, 1] : List Int) = [1, 2] :=
    List.eq_of_perm_of_sorted ((quickSort_perm _).trans (by decide))
      (quickSort_sorted _) (by decide)
  refine ⟨rfl, rfl, ?_, ?_⟩
  · show some (mergeSortRec ([2, 1] : List Int)) = some [1, 2]
    rw [hm]
  · show some (quickSort ([2, 1] : List Int)) = some [1, 2]
    rw [hq]

/-- C4 (code defect): on a keep_sorted array, inserting an element
strictly below the current minimum drives the ensuing insertionSort
scan to the out-of-bounds read of m_data[-1] — the insert has no
defined result (none in the model), and de facto the garbage read there
can be shifted into slot 0 — so the array is not sorted after every
insert.  An insert whose scan stops inside the buffer, such as
Insert(3) on [2], completes and leaves the prefix sorted. -/
theorem c4_keep_sorted_insert_oob :
    Insert (⟨[2], 4, true, true, false⟩ : ArrState Int) 1 = none ∧
    InsertAt (⟨[2], 4, true, true, false⟩ : ArrState Int) 1 1 = none ∧
    Insert (⟨[2], 4, true, true, false⟩ : ArrState Int) 3 =
      some (⟨[2, 3], 4, true, true, false⟩, 1) := by
  refine ⟨rfl, rfl, rfl⟩

/-- C6 counterexample: the claim admits from ≤ to ≤ used, but the source
has VERIFY(a_to < m_used), so GetSubArray(0, used) on a two-element array
aborts (none) instead of succeeding with the full range. -/
theorem c6_counterexample :
    GetSubArray (⟨[1, 2], 4, false, false, false⟩ : ArrState Int) 0 2 =
      none ∧ (0 : Nat) < 2 ∧ (2 : Nat) ≤ 2 := by
  refine ⟨?_, by decide, by decide⟩
  rfl

/-- C6 amended: for from < to < used (strictly below used, as the
source's VERIFY(a_to < m_used) requires), GetSubArray succeeds and the
result's live sequence is the source's elements at [from, to), with size
and capacity to - from. -/
theorem c6_get_sub_array_amended (st : ArrState α) (f t : Nat)
    (h1 : f < t) (h2 : t < st.data.length) :
    ∃ st2, GetSubArray st f t = some st2 ∧
      st2.data = (st.data.drop f).take (t - f) ∧
      st2.data.length = t - f ∧ st2.capacity = t - f := by
  refine ⟨⟨(st.data.drop f).take (t - f), t - f, st.sorted, st.sorted,
    st.growable⟩, ?_, rfl, ?_, rfl⟩
  · unfold GetSubArray
    rw [if_pos ⟨h1, by omega, h2⟩]
  · simp only [List.length_take, List.length_drop]
    omega

theorem c6_get_sub_array_amended_witness :
    ∃ st2, GetSubArray (⟨[8, 16, 32], 3, false, false, false⟩ : ArrState Int)
        0 2 = some st2 ∧
      st2.data = (List.drop 0 [8, 16, 32]).take (2 - 0) ∧
      st2.data.length = 2 - 0 ∧ st2.capacity = 2 - 0 :=
  c6_get_sub_array_amended ⟨[8, 16, 32], 3, false, false, false⟩ 0 2
    (by decide) (by decide)

/-- C7 counterexample: on a keep_sorted array holding [3, 7], Insert(5)
completes with a fully defined execution (each insertion scan stops at
an element ≤ temp, inside the buffer): the array becomes [3, 5, 7] with
5 at index 1, yet the call returns m_used - 1 = 2 — neither the index
the element occupies nor 0. -/
theorem c7_counterexample :
    Insert (⟨[3, 7], 4, true, true, false⟩ : ArrState Int) 5 =
      some (⟨[3, 5, 7], 4, true, true, false⟩, 2) ∧
    getA ([3, 5, 7] : List Int) 1 = 5 ∧ (2 : Nat) ≠ 1 ∧
    getA ([3, 5, 7] : List Int) 2 ≠ 5 ∧ (2 : Nat) ≠ 0 := by
  refine ⟨rfl, by decide, by decide, by decide, by decide⟩

/-- C7 amended: Insert(value) always returns m_used - 1 taken after the
increment, i.e. the pre-insert used count; when keep_sorted is false this
is the index the element actually occupies (the append position), while
for keep_sorted arrays the element may end up elsewhere. -/
theorem c7_insert_return_amended (st : ArrState α) (x : α)
    (st2 : ArrState α) (r : Nat) (h : Insert st x = some (st2, r)) :
    r = st.data.length ∧ st2.data.length = st.data.length + 1 ∧
    (st.keep_sorted = false →
      st2.data = st.data ++ [x] ∧ getA st2.data r = x) := by
  simp only [Insert] at h
  set st1 := if st.growable = true ∧ st.data.length ≥ st.capacity then
    { st with capacity := st.capacity * 2 } else st with hst1
  have hdata : st1.data = st.data := by
    rw [hst1]
    split_ifs <;> rfl
  rw [hdata] at h
  by_cases hcap : st.data.length < st1.capacity
  · rw [if_pos hcap] at h
    by_cases hks : st.keep_sorted = true
    · rw [if_pos hks] at h
      rcases his : insertionSort (st.data ++ [x]) with _ | d2
      · rw [his] at h
        exact absurd h (by simp)
      · rw [his] at h
        have h2 : some (({ st1 with data := d2, sorted := true },
            (st.data ++ [x]).length - 1) : ArrState α × Nat) =
            some (st2, r) := h
        obtain hpair := Option.some_inj.mp h2
        have hst : st2 = { st1 with data := d2, sorted := true } :=
          (congrArg Prod.fst hpair).symm
        have hr2 : r = st.data.length := by
          have hsnd : r = (st.data ++ [x]).length - 1 :=
            (congrArg Prod.snd hpair).symm
          rw [hsnd]
          simp
        refine ⟨hr2, ?_, fun hksf => absurd hks (by rw [hksf]; simp)⟩
        rw [hst]
        show d2.length = st.data.length + 1
        rw [insertionSort_length_some his]
        simp
    · rw [if_neg hks] at h
      obtain hpair := Option.some_inj.mp h
      have hst : st2 = _ := (congrArg Prod.fst hpair).symm
      have hr2 : r = st.data.length := by
        have hsnd : r = _ := (congrArg Prod.snd hpair).symm
        rw [hsnd]
        simp
      refine ⟨hr2, by rw [hst]; simp, fun _ => ⟨by rw [hst], ?_⟩⟩
      rw [hst, hr2]
      simp only
      unfold getA
      rw [List.getD_eq_getElem _ _ (by simp)]
      exact List.getElem_concat_length st.data x st.data.length rfl _
  · rw [if_neg hcap] at h
    exact absurd h (by simp)

theorem c7_insert_return_amended_witness :
    (1 : Nat) = (([7] : List Int)).length ∧
    ([7, 9] : List Int).length = ([7] : List Int).length + 1 ∧
    (false = false → ([7, 9] : List Int) = [7] ++ [9] ∧
      getA ([7, 9] : List Int) 1 = 9) := by
  have h := c7_insert_return_amended (⟨[7], 4, false, false, false⟩ :
    ArrState Int) 9 ⟨[7, 9], 4, false, false, false⟩ 1 (by rfl)
  exact h



theorem sorted_getA_mono (l : List α) (h : l.Sorted (· ≤ ·)) (a b : Nat)
    (hab : a ≤ b) (hb : b < l.length) : getA l a ≤ getA l b := by
  rcases Nat.eq_or_lt_of_le hab with rfl | hlt
  · exact le_refl _
  · rw [getA_eq_getElem l a (by omega), getA_eq_getElem l b hb]
    exact List.pairwise_iff_getElem.mp h a b (by omega) hb hlt

theorem frontBackSearch_spec : ∀ (n : Nat) (l : List α) (x : α) (f t : Int),
    (t - f + 1).toNat = n → 0 ≤ f → t < (l.length : Int) →
    (frontBackSearch l x f t = -1 →
      ∀ idx : Nat, f ≤ (idx : Int) → (idx : Int) ≤ t → getA l idx ≠ x) ∧
    (frontBackSearch l x f t ≠ -1 →
      f ≤ frontBackSearch l x f t ∧ frontBackSearch l x f t ≤ t ∧
      getA l (frontBackSearch l x f t).toNat = x) := by
  intro n
  induction n using Nat.strong_induction_on with
  | _ n ih =>
    intro l x f t hn hf ht
    by_cases hft : f ≤ t
    · by_cases h1 : getA l f.toNat = x
      · have hred : frontBackSearch l x f t = f := by
          conv_lhs => rw [frontBackSearch]
          rw [if_pos hft, if_pos h1]
        rw [hred]
        constructor
        · intro habs
          exfalso
          omega
        · intro _
          exact ⟨le_refl f, hft, h1⟩
      · by_cases h2 : getA l t.toNat = x
        · have hred : frontBackSearch l x f t = t := by
            conv_lhs => rw [frontBackSearch]
            rw [if_pos hft, if_neg h1, if_pos h2]
          rw [hred]
          constructor
          · intro habs
            exfalso
            omega
          · intro _
            exact ⟨hft, le_refl t, h2⟩
        · have hred : frontBackSearch l x f t =
              frontBackSearch l x (f + 1) (t - 1) := by
            conv_lhs => rw [frontBackSearch]
            rw [if_pos hft, if_neg h1, if_neg h2]
          rw [hred]
          have hm : (t - 1 - (f + 1) + 1).toNat < n := by omega
          obtain ⟨ihS, ihF⟩ := ih _ hm l x (f + 1) (t - 1) rfl (by omega)
            (by omega)
          constructor
          · intro hm1 idx hidx1 hidx2
            by_cases he1 : (idx : Int) = f
            · have : idx = f.toNat := by omega
              rw [this]
              exact h1
            · by_cases he2 : (idx : Int) = t
              · have : idx = t.toNat := by omega
                rw [this]
                exact h2
              · exact ihS hm1 idx (by omega) (by omega)
          · intro hne
            obtain ⟨g1, g2, g3⟩ := ihF hne
            exact ⟨by omega, by omega, g3⟩
    · have hred : frontBackSearch l x f t = -1 := by
        conv_lhs => rw [frontBackSearch]
        rw [if_neg hft]
      rw [hred]
      constructor
      · intro _ idx hidx1 hidx2
        exact absurd (le_trans hidx1 hidx2) hft
      · intro hne
        exact absurd rfl hne

theorem frontBackSearch_unique : ∀ (n : Nat) (l : List α) (x : α)
    (f t : Int) (i0 : Nat),
    (t - f + 1).toNat = n → 0 ≤ f → t < (l.length : Int) →
    f ≤ (i0 : Int) → (i0 : Int) ≤ t →
    (∀ idx : Nat, f ≤ (idx : Int) → (idx : Int) ≤ t →
      (getA l idx = x ↔ idx = i0)) →
    frontBackSearch l x f t = i0 := by
  intro n
  induction n using Nat.strong_induction_on with
  | _ n ih =>
    intro l x f t i0 hn hf ht hi1 hi2 hiff
    have hft : f ≤ t := le_trans hi1 hi2
    by_cases h1 : getA l f.toNat = x
    · have hfi : f.toNat = i0 := by
        exact (hiff f.toNat (by omega) (by omega)).mp h1
      have hred : frontBackSearch l x f t = f := by
        conv_lhs => rw [frontBackSearch]
        rw [if_pos hft, if_pos h1]
      rw [hred]
      omega
    · by_cases h2 : getA l t.toNat = x
      · have hti : t.toNat = i0 := (hiff t.toNat (by omega) (by omega)).mp h2
        have hred : frontBackSearch l x f t = t := by
          conv_lhs => rw [frontBackSearch]
          rw [if_pos hft, if_neg h1, if_pos h2]
        rw [hred]
        omega
      · have hfi : f.toNat ≠ i0 := by
          intro he
          exact h1 ((hiff f.toNat (by omega) (by omega)).mpr he)
        have hti : t.toNat ≠ i0 := by
          intro he
          exact h2 ((hiff t.toNat (by omega) (by omega)).mpr he)
        have hred : frontBackSearch l x f t =
            frontBackSearch l x (f + 1) (t - 1) := by
          conv_lhs => rw [frontBackSearch]
          rw [if_pos hft, if_neg h1, if_neg h2]
        rw [hred]
        have hm : (t - 1 - (f + 1) + 1).toNat < n := by omega
        exact ih _ hm l x (f + 1) (t - 1) i0 rfl (by omega) (by omega)
          (by omega) (by omega)
          (fun idx g1 g2 => hiff idx (by omega) (by omega))

theorem binarySearch_finds : ∀ (n : Nat) (l : List α) (x : α)
    (f : Nat) (t : Int),
    (t - f + 1).toNat = n → l.Sorted (· ≤ ·) → t < (l.length : Int) →
    (∃ idx : Nat, f ≤ idx ∧ (idx : Int) ≤ t ∧ getA l idx = x) →
    0 ≤ binarySearch l x f t ∧ binarySearch l x f t ≤ t ∧
    getA l (binarySearch l x f t).toNat = x := by
  intro n
  induction n using Nat.strong_induction_on with
  | _ n ih =>
    intro l x f t hn hs ht hocc
    obtain ⟨idx, hix1, hix2, hix3⟩ := hocc
    by_cases hft : (f : Int) = t
    · have hred : binarySearch l x f t = f := by
        conv_lhs => rw [binarySearch]
        rw [if_pos hft]
      rw [hred]
      have hif : idx = f := by omega
      rw [hif] at hix3
      refine ⟨by omega, by omega, ?_⟩
      have : ((f : Int)).toNat = f := by omega
      rw [this]
      exact hix3
    · by_cases hgt : (f : Int) > t
      · exfalso
        omega
      · have hlt : (f : Int) < t := by omega
        set pivot : Int := ((f : Int) + t) / 2 with hp
        have hpb : (f : Int) ≤ pivot ∧ pivot ≤ t - 1 := by
          constructor <;> omega
        have hplen : pivot.toNat < l.length := by omega
        by_cases hc1 : x < getA l pivot.toNat
        · have hred : binarySearch l x f t = binarySearch l x f (pivot - 1) := by
            conv_lhs => rw [binarySearch]
            rw [if_neg hft, if_neg hgt, if_pos hc1]
          rw [hred]
          have hm : (pivot - 1 - f + 1).toNat < n := by omega
          have hocc2 : ∃ idx2 : Nat, f ≤ idx2 ∧ (idx2 : Int) ≤ pivot - 1 ∧
              getA l idx2 = x := by
            refine ⟨idx, hix1, ?_, hix3⟩
            by_contra hge
            push_neg at hge
            have : getA l pivot.toNat ≤ getA l idx := by
              apply sorted_getA_mono l hs _ _ (by omega) (by omega)
            rw [hix3] at this
            exact absurd hc1 (not_lt.mpr this)
          obtain ⟨g1, g2, g3⟩ := ih _ hm l x f (pivot - 1) rfl hs
            (by omega) hocc2
          exact ⟨g1, by omega, g3⟩
        · by_cases hc2 : x > getA l pivot.toNat
          · have hred : binarySearch l x f t =
                binarySearch l x (pivot + 1).toNat t := by
              conv_lhs => rw [binarySearch]
              rw [if_neg hft, if_neg hgt, if_neg hc1, if_pos hc2]
            rw [hred]
            have hm : (t - ((pivot + 1).toNat : Int) + 1).toNat < n := by
              omega
            have hocc2 : ∃ idx2 : Nat, (pivot + 1).toNat ≤ idx2 ∧
                (idx2 : Int) ≤ t ∧ getA l idx2 = x := by
              refine ⟨idx, ?_, hix2, hix3⟩
              by_contra hge
              push_neg at hge
              have : getA l idx ≤ getA l pivot.toNat := by
                apply sorted_getA_mono l hs _ _ (by omega) hplen
              rw [hix3] at this
              exact absurd hc2 (not_lt.mpr this)
            obtain ⟨g1, g2, g3⟩ := ih _ hm l x (pivot + 1).toNat t rfl hs
              ht hocc2
            exact ⟨g1, g2, g3⟩
          · have hred : binarySearch l x f t = pivot := by
              conv_lhs => rw [binarySearch]
              rw [if_neg hft, if_neg hgt, if_neg hc1, if_neg hc2]
            rw [hred]
            have hx : getA l pivot.toNat = x :=
              le_antisymm (not_lt.mp hc1) (not_lt.mp hc2)
            exact ⟨by omega, by omega, hx⟩

/-- C5 counterexample: on the unsorted array [7, 5, 5], Find(5) runs the
front-back search and returns index 2, not the index 1 that a reference
front-to-back linear scan yields; on the sorted array [1, 3], Find(2)
returns index 1, where the stored element is 3, not 2 (and the result is
not -1 although 2 is absent). -/
theorem c5_counterexample :
    Find (⟨[7, 5, 5], 4, false, false, false⟩ : ArrState Int) 5 = 2 ∧
    linearScan ([7, 5, 5] : List Int) 5 = 1 ∧ (2 : Int) ≠ 1 ∧
    Find (⟨[1, 3], 4, true, false, false⟩ : ArrState Int) 2 = 1 ∧
    getA ([1, 3] : List Int) 1 ≠ 2 ∧ (1 : Int) ≠ -1 := by
  refine ⟨?_, by decide, by decide, ?_, by decide, by decide⟩
  · simp [Find, frontBackSearch, getA]
  · simp [Find, binarySearch, getA]

/-- C5 amended: on an unsorted array (m_sorted = false), Find returns -1
exactly when the element is absent, returns an index holding the element
when present, and coincides with the reference front-to-back linear scan
whenever the element occurs at most once (with duplicates the front-back
search may return the occurrence found from the back).  On an array whose
m_sorted flag is set and whose live prefix is sorted ascending, Find
returns some index holding the element whenever the element is present
(an absent element may yield a bogus in-range index rather than -1). -/
theorem c5_find_amended (st : ArrState α) (x : α) :
    (st.sorted = false →
      (x ∉ st.data → Find st x = -1) ∧
      (x ∈ st.data → 0 ≤ Find st x ∧ (Find st x).toNat < st.data.length ∧
        getA st.data (Find st x).toNat = x) ∧
      (st.data.count x ≤ 1 → Find st x = linearScan st.data x)) ∧
    (st.sorted = true → st.data.Sorted (· ≤ ·) → x ∈ st.data →
      0 ≤ Find st x ∧ (Find st x).toNat < st.data.length ∧
      getA st.data (Find st x).toNat = x) := by
  by_cases h0 : st.data.length = 0
  · have hnil : st.data = [] := List.length_eq_zero.mp h0
    have hF : Find st x = -1 := by
      unfold Find
      rw [if_pos h0]
    constructor
    · intro _
      refine ⟨fun _ => hF, fun hmem => ?_, fun _ => ?_⟩
      · rw [hnil] at hmem
        exact absurd hmem (List.not_mem_nil x)
      · rw [hF, hnil]
        simp [linearScan]
    · intro _ _ hmem
      rw [hnil] at hmem
      exact absurd hmem (List.not_mem_nil x)
  · constructor
    · intro hsf
      have hF : Find st x =
          frontBackSearch st.data x 0 ((st.data.length : Int) - 1) := by
        unfold Find
        rw [if_neg h0, hsf]
        simp
      obtain ⟨hsound, hfound⟩ := frontBackSearch_spec _ st.data x 0
        ((st.data.length : Int) - 1) rfl (by omega) (by omega)
      refine ⟨?_, ?_, ?_⟩
      · intro hmem
        rw [hF]
        by_contra hne
        obtain ⟨g1, g2, g3⟩ := hfound hne
        apply hmem
        rw [← g3, getA_eq_getElem _ _ (by omega)]
        exact List.getElem_mem (by omega)
      · intro hmem
        obtain ⟨i, hi, hgi⟩ := List.mem_iff_getElem.mp hmem
        rw [hF]
        have hne : frontBackSearch st.data x 0 ((st.data.length : Int) - 1)
            ≠ -1 := by
          intro heq
          refine hsound heq i (by omega) (by omega) ?_
          rw [getA_eq_getElem _ _ hi]
          exact hgi
        obtain ⟨g1, g2, g3⟩ := hfound hne
        exact ⟨g1, by omega, g3⟩
      · intro hcount
        by_cases hmem : x ∈ st.data
        · have hex : ∃ y ∈ st.data, decide (y = x) = true :=
            ⟨x, hmem, by simp⟩
          have hi0lt : st.data.findIdx (fun y => y = x) < st.data.length :=
            List.findIdx_lt_length_of_exists hex
          set i0 := st.data.findIdx (fun y => y = x) with hi0
          have hgt0 : st.data[i0] = x := by
            have := @List.findIdx_getElem _ (fun y => y = x) st.data hi0lt
            simpa using this
          have huni : ∀ j (hj : j < st.data.length), st.data[j] = x →
              j = i0 := by
            intro j hj hjx
            rcases lt_trichotomy j i0 with hlt | he | hgt
            · exfalso
              have := List.not_of_lt_findIdx (hi0 ▸ hlt)
              rw [hjx] at this
              simp at this
            · exact he
            · exfalso
              have hsplit : st.data =
                  st.data.take (i0 + 1) ++ st.data.drop (i0 + 1) :=
                (List.take_append_drop _ _).symm
              have hm1 : x ∈ st.data.take (i0 + 1) := by
                have hlt : i0 < (st.data.take (i0 + 1)).length := by
                  simp only [List.length_take]
                  omega
                have hgt : (st.data.take (i0 + 1))[i0] = st.data[i0] :=
                  List.getElem_take _
                refine List.mem_iff_getElem.mpr ⟨i0, hlt, ?_⟩
                rw [hgt]
                exact hgt0
              have hm2 : x ∈ st.data.drop (i0 + 1) := by
                have hj2 : j - (i0 + 1) < (st.data.drop (i0 + 1)).length := by
                  simp only [List.length_drop]
                  omega
                have hdg : (st.data.drop (i0 + 1))[j - (i0 + 1)] =
                    st.data[j] := by
                  rw [List.getElem_drop]
                  congr 1
                  omega
                refine List.mem_iff_getElem.mpr ⟨j - (i0 + 1), hj2, ?_⟩
                rw [hdg]
                exact hjx
              have hc1 : 1 ≤ (st.data.take (i0 + 1)).count x :=
                List.count_pos_iff.mpr hm1
              have hc2 : 1 ≤ (st.data.drop (i0 + 1)).count x :=
                List.count_pos_iff.mpr hm2
              have : st.data.count x =
                  (st.data.take (i0 + 1)).count x +
                  (st.data.drop (i0 + 1)).count x := by
                conv_lhs => rw [hsplit]
                exact List.count_append x _ _
              omega
          have hiff : ∀ idx : Nat, (0 : Int) ≤ idx →
              (idx : Int) ≤ (st.data.length : Int) - 1 →
              (getA st.data idx = x ↔ idx = i0) := by
            intro idx g1 g2
            constructor
            · intro hg
              apply huni idx (by omega)
              rw [← hg, getA_eq_getElem _ _ (by omega)]
            · intro hg
              rw [hg, getA_eq_getElem _ _ hi0lt]
              exact hgt0
          have hFB := frontBackSearch_unique _ st.data x 0
            ((st.data.length : Int) - 1) i0 rfl (by omega) (by omega)
            (by omega) (by omega) hiff
          rw [hF, hFB]
          unfold linearScan
          simp only [← hi0]
          rw [if_pos hi0lt]
        · have hFm1 : Find st x = -1 := by
            rw [hF]
            by_contra hne
            obtain ⟨g1, g2, g3⟩ := hfound hne
            apply hmem
            rw [← g3, getA_eq_getElem _ _ (by omega)]
            exact List.getElem_mem (by omega)
          rw [hFm1]
          unfold linearScan
          have : st.data.findIdx (fun y => y = x) = st.data.length := by
            rw [List.findIdx_eq_length]
            intro y hy
            simp only [decide_eq_false_iff_not]
            intro he
            exact hmem (he ▸ hy)
          rw [this, if_neg (by omega)]
    · intro hst hsorted hmem
      have hF : Find st x =
          binarySearch st.data x 0 ((st.data.length : Int) - 1) := by
        unfold Find
        rw [if_neg h0, hst]
        simp
      obtain ⟨i, hi, hgi⟩ := List.mem_iff_getElem.mp hmem
      obtain ⟨g1, g2, g3⟩ := binarySearch_finds _ st.data x 0
        ((st.data.length : Int) - 1) rfl hsorted (by omega)
        ⟨i, Nat.zero_le _, by omega, by rw [getA_eq_getElem _ _ hi]; exact hgi⟩
      rw [hF]
      exact ⟨g1, by omega, g3⟩

theorem c5_find_amended_witness :
    ((false = false →
      ((5 : Int) ∉ ([7, 5, 5] : List Int) →
        Find (⟨[7, 5, 5], 4, false, false, false⟩ : ArrState Int) 5 = -1) ∧
      ((5 : Int) ∈ ([7, 5, 5] : List Int) →
        0 ≤ Find (⟨[7, 5, 5], 4, false, false, false⟩ : ArrState Int) 5 ∧
        (Find (⟨[7, 5, 5], 4, false, false, false⟩ : ArrState Int) 5).toNat <
          ([7, 5, 5] : List Int).length ∧
        getA ([7, 5, 5] : List Int)
          (Find (⟨[7, 5, 5], 4, false, false, false⟩ : ArrState Int) 5).toNat
          = 5) ∧
      (([7, 5, 5] : List Int).count 5 ≤ 1 →
        Find (⟨[7, 5, 5], 4, false, false, false⟩ : ArrState Int) 5 =
          linearScan ([7, 5, 5] : List Int) 5)) ∧
    (false = true → List.Sorted (· ≤ ·) ([7, 5, 5] : List Int) →
      (5 : Int) ∈ ([7, 5, 5] : List Int) →
      0 ≤ Find (⟨[7, 5, 5], 4, false, false, false⟩ : ArrState Int) 5 ∧
      (Find (⟨[7, 5, 5], 4, false, false, false⟩ : ArrState Int) 5).toNat <
        ([7, 5, 5] : List Int).length ∧
      getA ([7, 5, 5] : List Int)
        (Find (⟨[7, 5, 5], 4, false, false, false⟩ : ArrState Int) 5).toNat
        = 5)) :=
  c5_find_amended (⟨[7, 5, 5], 4, false, false, false⟩ : ArrState Int) 5


end NtlArr

namespace NtlMap

variable {κ ν : Type} [DecidableEq κ] [Inhabited ν]

theorem getDo_set_self (es : List (Option (κ × ν))) (s : Nat)
    (a : Option (κ × ν)) (hs : s < es.length) :
    (es.set s a).getD s none = a := by
  rw [List.getD_eq_getElem _ _ (by simpa using hs), List.getElem_set_self]

theorem getDo_set_ne (es : List (Option (κ × ν))) (s idx : Nat)
    (a : Option (κ × ν)) (h : idx ≠ s) :
    (es.set s a).getD idx none = es.getD idx none := by
  rcases Nat.lt_or_ge idx es.length with hl | hl
  · rw [List.getD_eq_getElem _ _ (by simpa using hl),
      List.getElem_set_ne (fun he => h he.symm),
      ← List.getD_eq_getElem es none hl]
  · rw [List.getD_eq_default _ _ (by simpa using hl),
      List.getD_eq_default _ _ hl]

theorem probeFind_step_none (es : List (Option (κ × ν))) (k : κ)
    (pos n : Nat) (h : es.getD pos none = none) :
    probeFind es k pos (n + 1) = none := by
  conv_lhs => rw [probeFind]
  rw [h]

theorem probeFind_step_some (es : List (Option (κ × ν))) (k : κ)
    (pos n : Nat) (e : κ × ν) (h : es.getD pos none = some e) :
    probeFind es k pos (n + 1) =
      if e.1 = k then some pos
      else probeFind es k ((pos + 1) % es.length) n := by
  conv_lhs => rw [probeFind]
  rw [h]

theorem probeInsert_step_none (es : List (Option (κ × ν))) (k : κ) (v : ν)
    (pos n : Nat) (h : es.getD pos none = none) :
    probeInsert es k v pos (n + 1) = some (es.set pos (some (k, v))) := by
  conv_lhs => rw [probeInsert]
  rw [h]

theorem probeInsert_step_some (es : List (Option (κ × ν))) (k : κ) (v : ν)
    (pos n : Nat) (e : κ × ν) (h : es.getD pos none = some e) :
    probeInsert es k v pos (n + 1) =
      if e.1 = k then some (es.set pos (some (k, v)))
      else probeInsert es k v ((pos + 1) % es.length) n := by
  conv_lhs => rw [probeInsert]
  rw [h]

theorem probePlace_step_none (es : List (Option (κ × ν))) (k : κ) (v : ν)
    (pos n : Nat) (h : es.getD pos none = none) :
    probePlace es k v pos (n + 1) = some (es.set pos (some (k, v))) := by
  conv_lhs => rw [probePlace]
  rw [h]

theorem probePlace_step_some (es : List (Option (κ × ν))) (k : κ) (v : ν)
    (pos n : Nat) (e : κ × ν) (h : es.getD pos none = some e) :
    probePlace es k v pos (n + 1) =
      probePlace es k v ((pos + 1) % es.length) n := by
  conv_lhs => rw [probePlace]
  rw [h]

/-- A successful find points at a used slot holding the searched key. -/
theorem probeFind_result (k : κ) :
    ∀ (fuel : Nat) (es : List (Option (κ × ν))) (pos i : Nat),
      probeFind es k pos fuel = some i →
      i < es.length ∧ ∃ v2, es.getD i none = some (k, v2) := by
  intro fuel
  induction fuel with
  | zero => intro es pos i h; simp [probeFind] at h
  | succ n ih =>
    intro es pos i h
    rcases he : es.getD pos none with _ | e
    · rw [probeFind_step_none es k pos n he] at h
      exact Option.noConfusion h
    · rw [probeFind_step_some es k pos n e he] at h
      by_cases hk : e.1 = k
      · rw [if_pos hk] at h
        obtain rfl := Option.some_inj.mp h
        refine ⟨?_, e.2, by rw [he, ← hk]⟩
        by_contra hge
        push_neg at hge
        rw [List.getD_eq_default _ _ hge] at he
        exact Option.noConfusion he
      · rw [if_neg hk] at h
        exact ih es _ i h

/-- The probe walk only looks at the used-flag and key of each slot, so
two tables of the same length whose slots agree on those agree on every
find. -/
theorem probeFind_congr (k : κ) :
    ∀ (fuel : Nat) (es es2 : List (Option (κ × ν))) (pos : Nat),
      es.length = es2.length →
      (∀ idx, (es.getD idx none).map Prod.fst =
        (es2.getD idx none).map Prod.fst) →
      probeFind es k pos fuel = probeFind es2 k pos fuel := by
  intro fuel
  induction fuel with
  | zero => intro es es2 pos _ _; simp [probeFind]
  | succ n ih =>
    intro es es2 pos hlen hsh
    have hp := hsh pos
    rcases he : es.getD pos none with _ | e <;>
      rcases he2 : es2.getD pos none with _ | e2
    · rw [probeFind_step_none es k pos n he,
        probeFind_step_none es2 k pos n he2]
    · rw [he, he2] at hp
      simp at hp
    · rw [he, he2] at hp
      simp at hp
    · rw [he, he2] at hp
      have hk : e.1 = e2.1 := by simpa using hp
      rw [probeFind_step_some es k pos n e he,
        probeFind_step_some es2 k pos n e2 he2]
      by_cases hke : e.1 = k
      · rw [if_pos hke, if_pos (hk ▸ hke)]
      · rw [if_neg hke, if_neg (hk ▸ hke), hlen]
        exact ih es es2 _ hlen hsh

/-- The insert probe writes the pair at the first unused or key-equal
slot of the walk, and the same walk finds it again immediately. -/
theorem probeInsert_spec (k : κ) (v : ν) :
    ∀ (fuel : Nat) (es es2 : List (Option (κ × ν))) (pos : Nat),
      pos < es.length →
      probeInsert es k v pos fuel = some es2 →
      ∃ s, s < es.length ∧ es2 = es.set s (some (k, v)) ∧
        (es.getD s none = none ∨ ∃ v2, es.getD s none = some (k, v2)) ∧
        probeFind es2 k pos fuel = some s := by
  intro fuel
  induction fuel with
  | zero => intro es es2 pos _ h; simp [probeInsert] at h
  | succ n ih =>
    intro es es2 pos hpos h
    rcases he : es.getD pos none with _ | e
    · rw [probeInsert_step_none es k v pos n he] at h
      obtain rfl := (Option.some_inj.mp h).symm
      refine ⟨pos, hpos, rfl, Or.inl he, ?_⟩
      rw [probeFind_step_some _ k pos n (k, v)
        (getDo_set_self es pos _ hpos)]
      simp
    · rw [probeInsert_step_some es k v pos n e he] at h
      by_cases hk : e.1 = k
      · rw [if_pos hk] at h
        obtain rfl := (Option.some_inj.mp h).symm
        refine ⟨pos, hpos, rfl, Or.inr ⟨e.2, by rw [he, ← hk]⟩, ?_⟩
        rw [probeFind_step_some _ k pos n (k, v)
          (getDo_set_self es pos _ hpos)]
        simp
      · rw [if_neg hk] at h
        have hlen0 : 0 < es.length := by omega
        obtain ⟨s, hs1, hs2, hs3, hs4⟩ := ih es es2 _
          (Nat.mod_lt _ hlen0) h
        have hsp : s ≠ pos := by
          intro habs
          rw [habs, he] at hs3
          rcases hs3 with h3 | ⟨v2, h3⟩
          · exact Option.noConfusion h3
          · exact hk (congrArg Prod.fst (Option.some_inj.mp h3))
        refine ⟨s, hs1, hs2, hs3, ?_⟩
        have hpe : es2.getD pos none = some e := by
          rw [hs2, getDo_set_ne es s pos _ (fun x => hsp x.symm), he]
        rw [probeFind_step_some es2 k pos n e hpe, if_neg hk]
        have hlen2 : es2.length = es.length := by
          rw [hs2]; simp
        rw [hlen2]
        exact hs4

/-- If find already succeeds, insert overwrites exactly the found slot. -/
theorem probeInsert_of_find (k : κ) (v : ν) :
    ∀ (fuel : Nat) (es : List (Option (κ × ν))) (pos i : Nat),
      probeFind es k pos fuel = some i →
      probeInsert es k v pos fuel = some (es.set i (some (k, v))) := by
  intro fuel
  induction fuel with
  | zero => intro es pos i h; simp [probeFind] at h
  | succ n ih =>
    intro es pos i h
    rcases he : es.getD pos none with _ | e
    · rw [probeFind_step_none es k pos n he] at h
      exact Option.noConfusion h
    · rw [probeFind_step_some es k pos n e he] at h
      rw [probeInsert_step_some es k v pos n e he]
      by_cases hk : e.1 = k
      · rw [if_pos hk] at h ⊢
        obtain rfl := Option.some_inj.mp h
        rfl
      · rw [if_neg hk] at h ⊢
        exact ih es _ i h

/-- Filling an unused slot, or overwriting a slot that already holds the
key being written, does not change the outcome of finds for other keys. -/
theorem probeFind_fill (k k2 : κ) (v : ν) (s : Nat)
    (es : List (Option (κ × ν))) (hs : s < es.length)
    (hshape : es.getD s none = none ∨ ∃ v2, es.getD s none = some (k, v2))
    (hk : k2 ≠ k) :
    ∀ (fuel : Nat) (pos i : Nat),
      probeFind es k2 pos fuel = some i →
      probeFind (es.set s (some (k, v))) k2 pos fuel = some i := by
  intro fuel
  induction fuel with
  | zero => intro pos i h; simp [probeFind] at h
  | succ n ih =>
    intro pos i h
    have hlen2 : (es.set s (some (k, v))).length = es.length := by simp
    by_cases hps : pos = s
    · subst hps
      rcases hshape with h0 | ⟨v2, h0⟩
      · rw [probeFind_step_none es k2 pos n h0] at h
        exact Option.noConfusion h
      · rw [probeFind_step_some es k2 pos n (k, v2) h0] at h
        rw [if_neg (fun he => hk he.symm)] at h
        rw [probeFind_step_some _ k2 pos n (k, v)
          (getDo_set_self es pos _ hs)]
        rw [if_neg (fun he => hk he.symm), hlen2]
        exact ih _ i h
    · rcases he : es.getD pos none with _ | e
      · rw [probeFind_step_none es k2 pos n he] at h
        exact Option.noConfusion h
      · rw [probeFind_step_some es k2 pos n e he] at h
        rw [probeFind_step_some _ k2 pos n e
          (by rw [getDo_set_ne es s pos _ hps, he])]
        by_cases hke : e.1 = k2
        · rw [if_pos hke] at h ⊢
          exact h
        · rw [if_neg hke] at h ⊢
          rw [hlen2]
          exact ih _ i h

end NtlMap

namespace NtlMap

variable {κ ν : Type} [DecidableEq κ] [Inhabited ν]

/-- Every table index is reached from any start position within one full
lap of the wrap-around walk. -/
theorem exists_probe_offset (pos i L : Nat) (hp : pos < L) (hi : i < L) :
    ∃ j, j < L ∧ (pos + j) % L = i := by
  by_cases h : pos ≤ i
  · refine ⟨i - pos, by omega, ?_⟩
    rw [show pos + (i - pos) = i by omega]
    exact Nat.mod_eq_of_lt hi
  · refine ⟨i + L - pos, by omega, ?_⟩
    rw [show pos + (i + L - pos) = i + L by omega, Nat.add_mod_right]
    exact Nat.mod_eq_of_lt hi

/-- The insert probe succeeds as soon as some slot within the fuel
budget is unused or holds the key. -/
theorem probeInsert_success (k : κ) (v : ν) (es : List (Option (κ × ν))) :
    ∀ (fuel pos : Nat), pos < es.length →
      (∃ j, j < fuel ∧ (es.getD ((pos + j) % es.length) none = none ∨
        ∃ v2, es.getD ((pos + j) % es.length) none = some (k, v2))) →
      ∃ es2, probeInsert es k v pos fuel = some es2 := by
  intro fuel
  induction fuel with
  | zero =>
    intro pos _ hw
    obtain ⟨j, hj, _⟩ := hw
    omega
  | succ n ih =>
    intro pos hpos hw
    rcases he : es.getD pos none with _ | e
    · exact ⟨_, probeInsert_step_none es k v pos n he⟩
    · by_cases hk : e.1 = k
      · exact ⟨_, by rw [probeInsert_step_some es k v pos n e he, if_pos hk]⟩
      · obtain ⟨j, hj, hP⟩ := hw
        have hj0 : j ≠ 0 := by
          intro habs
          rw [habs, Nat.add_zero, Nat.mod_eq_of_lt hpos, he] at hP
          rcases hP with h0 | ⟨v2, h0⟩
          · exact Option.noConfusion h0
          · exact hk (congrArg Prod.fst (Option.some_inj.mp h0))
        have hlen0 : 0 < es.length := by omega
        have hwalk : ((pos + 1) % es.length + (j - 1)) % es.length =
            (pos + j) % es.length := by
          rw [Nat.mod_add_mod]
          congr 1
          omega
        obtain ⟨es2, h2⟩ := ih ((pos + 1) % es.length)
          (Nat.mod_lt _ hlen0) ⟨j - 1, by omega, by rw [hwalk]; exact hP⟩
        refine ⟨es2, ?_⟩
        rw [probeInsert_step_some es k v pos n e he, if_neg hk]
        exact h2

/-- The rehash placement probe writes the pair at the first unused slot
of the walk; when the key is absent from the table, the find walk from
the same start then returns exactly that slot. -/
theorem probePlace_spec (k : κ) (v : ν) :
    ∀ (fuel : Nat) (es es2 : List (Option (κ × ν))) (pos : Nat),
      pos < es.length →
      probePlace es k v pos fuel = some es2 →
      ∃ s, s < es.length ∧ es.getD s none = none ∧
        es2 = es.set s (some (k, v)) ∧
        ((∀ i v2, es.getD i none ≠ some (k, v2)) →
          probeFind es2 k pos fuel = some s) := by
  intro fuel
  induction fuel with
  | zero => intro es es2 pos _ h; simp [probePlace] at h
  | succ n ih =>
    intro es es2 pos hpos h
    rcases he : es.getD pos none with _ | e
    · rw [probePlace_step_none es k v pos n he] at h
      obtain rfl := (Option.some_inj.mp h).symm
      refine ⟨pos, hpos, he, rfl, fun _ => ?_⟩
      rw [probeFind_step_some _ k pos n (k, v)
        (getDo_set_self es pos _ hpos)]
      simp
    · rw [probePlace_step_some es k v pos n e he] at h
      have hlen0 : 0 < es.length := by omega
      obtain ⟨s, hs1, hs2, hs3, hs4⟩ := ih es es2 _
        (Nat.mod_lt _ hlen0) h
      have hsp : s ≠ pos := by
        intro habs
        rw [habs, he] at hs2
        exact Option.noConfusion hs2
      refine ⟨s, hs1, hs2, hs3, fun habs => ?_⟩
      have hpe : es2.getD pos none = some e := by
        rw [hs3, getDo_set_ne es s pos _ (fun x => hsp x.symm), he]
      rw [probeFind_step_some es2 k pos n e hpe]
      have hek : e.1 ≠ k := by
        intro hkk
        exact habs pos e.2 (by rw [he, ← hkk])
      rw [if_neg hek]
      have hlen2 : es2.length = es.length := by
        rw [hs3]; simp
      rw [hlen2]
      exact hs4 habs

/-- The placement probe succeeds as soon as some slot within the fuel
budget is unused. -/
theorem probePlace_success (k : κ) (v : ν) (es : List (Option (κ × ν))) :
    ∀ (fuel pos : Nat), pos < es.length →
      (∃ j, j < fuel ∧ es.getD ((pos + j) % es.length) none = none) →
      ∃ es2, probePlace es k v pos fuel = some es2 := by
  intro fuel
  induction fuel with
  | zero =>
    intro pos _ hw
    obtain ⟨j, hj, _⟩ := hw
    omega
  | succ n ih =>
    intro pos hpos hw
    rcases he : es.getD pos none with _ | e
    · exact ⟨_, probePlace_step_none es k v pos n he⟩
    · obtain ⟨j, hj, hP⟩ := hw
      have hj0 : j ≠ 0 := by
        intro habs
        rw [habs, Nat.add_zero, Nat.mod_eq_of_lt hpos, he] at hP
        exact Option.noConfusion hP
      have hlen0 : 0 < es.length := by omega
      have hwalk : ((pos + 1) % es.length + (j - 1)) % es.length =
          (pos + j) % es.length := by
        rw [Nat.mod_add_mod]
        congr 1
        omega
      obtain ⟨es2, h2⟩ := ih ((pos + 1) % es.length)
        (Nat.mod_lt _ hlen0) ⟨j - 1, by omega, by rw [hwalk]; exact hP⟩
      exact ⟨es2, by rw [probePlace_step_some es k v pos n e he]; exact h2⟩

/-- A table with fewer used slots than its length has an unused slot. -/
theorem countP_lt_exists_none :
    ∀ (es : List (Option (κ × ν))), es.countP (·.isSome) < es.length →
      ∃ i, i < es.length ∧ es.getD i none = none := by
  intro es
  induction es with
  | nil => intro h; simp at h
  | cons a es ih =>
    intro h
    rcases a with _ | kv
    · exact ⟨0, by simp, rfl⟩
    · rw [List.countP_cons] at h
      simp only [Option.isSome_some, if_pos] at h
      have h2 : es.countP (·.isSome) < es.length := by
        simp only [List.length_cons] at h
        omega
      obtain ⟨i, hi, hg⟩ := ih h2
      exact ⟨i + 1, by simp; omega, by simpa using hg⟩

/-- Filling an unused slot raises the used count by one. -/
theorem countP_set_fill (es : List (Option (κ × ν))) (s : Nat)
    (kv : κ × ν) (hs : s < es.length) (hnone : es.getD s none = none) :
    (es.set s (some kv)).countP (·.isSome) =
      es.countP (·.isSome) + 1 := by
  have hget : es[s] = none := by
    rw [← List.getD_eq_getElem es none hs]
    exact hnone
  have hdec : es = es.take s ++ es[s] :: es.drop (s + 1) := by
    conv_lhs => rw [← List.take_append_drop s es]
    rw [List.drop_eq_getElem_cons hs]
  have hset : es.set s (some kv) =
      es.take s ++ some kv :: es.drop (s + 1) :=
    List.set_eq_take_cons_drop _ hs
  rw [hset]
  conv_rhs => rw [hdec]
  rw [List.countP_append, List.countP_append, List.countP_cons,
    List.countP_cons, hget]
  simp
  omega

end NtlMap

namespace NtlMap

variable {κ ν : Type} [DecidableEq κ] [Inhabited ν]

/-- Resize is the placeStep fold over the old table (guards included). -/
theorem Resize_fold (hash : κ → Nat) (m : MapState κ ν) (newCap : Nat) :
    Resize hash m newCap =
      if newCap ≥ mUsed m ∧ newCap > capacity m then
        (m.entries.foldl (placeStep hash)
          (some (List.replicate newCap (none : Option (κ × ν))))).map
          fun es => { m with entries := es }
      else none := rfl

theorem placeStep_none (hash : κ → Nat) (e : Option (κ × ν)) :
    placeStep hash none e = none := by
  rcases e with _ | kv <;> rfl

theorem placeStep_skip (hash : κ → Nat) (es : List (Option (κ × ν))) :
    placeStep hash (some es) none = some es := rfl

theorem placeStep_place (hash : κ → Nat) (es : List (Option (κ × ν)))
    (kv : κ × ν) :
    placeStep hash (some es) (some kv) =
      probePlace es kv.1 kv.2 (hash kv.1 % es.length) es.length := rfl

theorem placeFold_bot (hash : κ → Nat) :
    ∀ (rest : List (Option (κ × ν))),
      rest.foldl (placeStep hash) none = none := by
  intro rest
  induction rest with
  | nil => rfl
  | cons a rest ih =>
    rw [List.foldl_cons, placeStep_none hash a]
    exact ih

/-- A completed placement fold preserves table length and places
exactly the used entries of the processed list. -/
theorem placeFold_count (hash : κ → Nat) :
    ∀ (rest : List (Option (κ × ν))) (es es2 : List (Option (κ × ν))),
      0 < es.length →
      rest.foldl (placeStep hash) (some es) = some es2 →
      es2.length = es.length ∧ es2.countP (·.isSome) =
        es.countP (·.isSome) + rest.countP (·.isSome) := by
  intro rest
  induction rest with
  | nil =>
    intro es es2 h0 h
    obtain rfl := Option.some_inj.mp h
    exact ⟨rfl, by simp⟩
  | cons a rest ih =>
    intro es es2 h0 h
    rcases a with _ | kv
    · rw [List.foldl_cons, placeStep_skip hash es] at h
      obtain ⟨h1, h2⟩ := ih es es2 h0 h
      refine ⟨h1, ?_⟩
      rw [h2, List.countP_cons]
      simp
    · rw [List.foldl_cons, placeStep_place hash es kv] at h
      rcases hpp : probePlace es kv.1 kv.2 (hash kv.1 % es.length)
          es.length with _ | es3
      · rw [hpp, placeFold_bot hash rest] at h
        exact Option.noConfusion h
      · rw [hpp] at h
        obtain ⟨s, hs, hnone, hset, _⟩ := probePlace_spec kv.1 kv.2
          es.length es es3 _ (Nat.mod_lt _ h0) hpp
        have hlen3 : es3.length = es.length := by rw [hset]; simp
        have hcnt3 : es3.countP (·.isSome) = es.countP (·.isSome) + 1 := by
          rw [hset]
          exact countP_set_fill es s (kv.1, kv.2) hs hnone
        obtain ⟨h1, h2⟩ := ih es3 es2 (by omega) h
        refine ⟨h1.trans hlen3, ?_⟩
        rw [h2, hcnt3, List.countP_cons]
        simp
        omega

/-- The placement fold succeeds whenever the entries to place fit into
the free space of the target table. -/
theorem placeFold_success (hash : κ → Nat) :
    ∀ (rest : List (Option (κ × ν))) (es : List (Option (κ × ν))),
      0 < es.length →
      es.countP (·.isSome) + rest.countP (·.isSome) ≤ es.length →
      ∃ es2, rest.foldl (placeStep hash) (some es) = some es2 := by
  intro rest
  induction rest with
  | nil => intro es _ _; exact ⟨es, rfl⟩
  | cons a rest ih =>
    intro es h0 hcnt
    rcases a with _ | kv
    · rw [List.foldl_cons, placeStep_skip hash es]
      refine ih es h0 ?_
      rw [List.countP_cons] at hcnt
      simp at hcnt
      exact hcnt
    · rw [List.countP_cons] at hcnt
      simp at hcnt
      have hlt : es.countP (·.isSome) < es.length := by omega
      obtain ⟨i, hi, hni⟩ := countP_lt_exists_none es hlt
      have hpos : hash kv.1 % es.length < es.length := Nat.mod_lt _ h0
      obtain ⟨j, hj, hwj⟩ := exists_probe_offset (hash kv.1 % es.length)
        i es.length hpos hi
      obtain ⟨es3, hpp⟩ := probePlace_success kv.1 kv.2 es es.length _
        hpos ⟨j, hj, by rw [hwj]; exact hni⟩
      rw [List.foldl_cons, placeStep_place hash es kv, hpp]
      obtain ⟨s, hs, hnone, hset, _⟩ := probePlace_spec kv.1 kv.2
        es.length es es3 _ hpos hpp
      have hlen3 : es3.length = es.length := by rw [hset]; simp
      have hcnt3 : es3.countP (·.isSome) = es.countP (·.isSome) + 1 := by
        rw [hset]
        exact countP_set_fill es s (kv.1, kv.2) hs hnone
      exact ih es3 (by omega) (by omega)

/-- A well-formed table has pairwise distinct keys across its slots. -/
theorem slotInv_pairwise (hash : κ → Nat) (es : List (Option (κ × ν)))
    (hInv : SlotInv hash es) :
    es.Pairwise (fun e1 e2 => ∀ k2 v1 v2,
      e1 = some (k2, v1) → e2 = some (k2, v2) → False) := by
  rw [List.pairwise_iff_getElem]
  intro i j hi hj hij k2 v1 v2 h1 h2
  have hgi : es.getD i none = some (k2, v1) := by
    rw [List.getD_eq_getElem _ _ hi, h1]
  have hgj : es.getD j none = some (k2, v2) := by
    rw [List.getD_eq_getElem _ _ hj, h2]
  have hfi := hInv i (k2, v1) hgi
  have hfj := hInv j (k2, v2) hgj
  rw [hfi] at hfj
  exact absurd (Option.some_inj.mp hfj) (by omega)

theorem getDo_replicate (c i : Nat) :
    (List.replicate c (none : Option (κ × ν))).getD i none = none := by
  rcases Nat.lt_or_ge i c with h | h
  · rw [List.getD_eq_getElem _ _ (by simpa using h), List.getElem_replicate]
  · rw [List.getD_eq_default _ _ (by simpa using h)]

theorem countP_replicate_none (c : Nat) :
    (List.replicate c (none : Option (κ × ν))).countP (·.isSome) = 0 := by
  induction c with
  | zero => rfl
  | succ n ih =>
    rw [List.replicate_succ, List.countP_cons]
    simp [ih]

/-- A completed placement fold into a well-formed table keeps it
well-formed, as long as the keys being placed are new and pairwise
distinct. -/
theorem placeFold_sound (hash : κ → Nat) :
    ∀ (rest : List (Option (κ × ν))) (es es2 : List (Option (κ × ν))),
      0 < es.length → SlotInv hash es →
      (∀ k2, HasKey es k2 → ∀ e ∈ rest, ∀ v2, e ≠ some (k2, v2)) →
      rest.Pairwise (fun e1 e2 => ∀ k2 v1 v2,
        e1 = some (k2, v1) → e2 = some (k2, v2) → False) →
      rest.foldl (placeStep hash) (some es) = some es2 →
      SlotInv hash es2 := by
  intro rest
  induction rest with
  | nil =>
    intro es es2 _ hInv _ _ h
    obtain rfl := Option.some_inj.mp h
    exact hInv
  | cons a rest ih =>
    intro es es2 h0 hInv hdisj hpw h
    obtain ⟨hhead, htail⟩ := List.pairwise_cons.mp hpw
    rcases a with _ | kv
    · rw [List.foldl_cons, placeStep_skip hash es] at h
      refine ih es es2 h0 hInv ?_ htail h
      intro k2 hk2 e he v2
      exact hdisj k2 hk2 e (List.mem_cons_of_mem _ he) v2
    · rw [List.foldl_cons, placeStep_place hash es kv] at h
      rcases hpp : probePlace es kv.1 kv.2 (hash kv.1 % es.length)
          es.length with _ | es3
      · rw [hpp, placeFold_bot hash rest] at h
        exact Option.noConfusion h
      · rw [hpp] at h
        have hpos : hash kv.1 % es.length < es.length := Nat.mod_lt _ h0
        obtain ⟨s, hs, hnone, hset, hfind⟩ := probePlace_spec kv.1 kv.2
          es.length es es3 _ hpos hpp
        have habsent : ∀ i v2, es.getD i none ≠ some (kv.1, v2) := by
          intro i v2 habs
          exact hdisj kv.1 ⟨i, v2, habs⟩ (some kv)
            (List.mem_cons_self _ _) kv.2 rfl
        have hfindS := hfind habsent
        have hlen3 : es3.length = es.length := by rw [hset]; simp
        have hInv3 : SlotInv hash es3 := by
          intro i kv2 hgi
          by_cases his : i = s
          · subst his
            rw [hset, getDo_set_self es i _ hs] at hgi
            obtain rfl := (Option.some_inj.mp hgi).symm
            rw [hlen3]
            exact hfindS
          · rw [hset, getDo_set_ne es s i _ his] at hgi
            have hk2 : kv2.1 ≠ kv.1 := by
              intro heq
              refine habsent i kv2.2 ?_
              rw [hgi]
              rw [show kv2 = (kv2.1, kv2.2) from rfl, heq]
            have hold := hInv i kv2 hgi
            have hnew := probeFind_fill kv.1 kv2.1 kv.2 s es hs
              (Or.inl hnone) hk2 es.length (hash kv2.1 % es.length) i hold
            rw [hlen3, hset]
            exact hnew
        refine ih es3 es2 (by omega) hInv3 ?_ htail h
        intro k2 hk2 e he v2 habs
        obtain ⟨i, v, hg⟩ := hk2
        by_cases his : i = s
        · subst his
          rw [hset, getDo_set_self es i _ hs] at hg
          have hkeq : k2 = kv.1 := (congrArg Prod.fst
            (Option.some_inj.mp hg)).symm
          refine hhead e he k2 kv.2 v2 ?_ habs
          rw [hkeq]
        · rw [hset, getDo_set_ne es s i _ his] at hg
          exact hdisj k2 ⟨i, v, hg⟩ e (List.mem_cons_of_mem _ he) v2 habs

end NtlMap

namespace NtlMap

variable {κ ν : Type} [DecidableEq κ] [Inhabited ν]

/-- A completed Resize is the completed fold into a blank table of the
requested capacity, and the guards held. -/
theorem Resize_some (hash : κ → Nat) {m : MapState κ ν} {newCap : Nat}
    {m2 : MapState κ ν} (h : Resize hash m newCap = some m2) :
    newCap ≥ mUsed m ∧ newCap > capacity m ∧
      ∃ es2, m.entries.foldl (placeStep hash)
        (some (List.replicate newCap (none : Option (κ × ν)))) = some es2 ∧
        m2 = { m with entries := es2 } := by
  rw [Resize_fold] at h
  by_cases hc : newCap ≥ mUsed m ∧ newCap > capacity m
  · rw [if_pos hc] at h
    rcases hx : m.entries.foldl (placeStep hash)
        (some (List.replicate newCap (none : Option (κ × ν)))) with _ | es2
    · rw [hx] at h
      exact absurd h (by simp)
    · rw [hx] at h
      refine ⟨hc.1, hc.2, es2, rfl, ?_⟩
      exact (Option.some_inj.mp h).symm
  · rw [if_neg hc] at h
    exact absurd h (by simp)

/-- Resize preserves the invariant, the used count and growability, and
sets the capacity to the request. -/
theorem resize_inv (hash : κ → Nat) {m : MapState κ ν} {newCap : Nat}
    {m2 : MapState κ ν} (hInv : Inv hash m)
    (h : Resize hash m newCap = some m2) :
    Inv hash m2 ∧ mUsed m2 = mUsed m ∧ capacity m2 = newCap ∧
      m2.growable = m.growable := by
  obtain ⟨hge, hgt, es2, hf, hm2⟩ := Resize_some hash h
  have h0 : 0 < newCap := lt_of_le_of_lt (Nat.zero_le _) hgt
  have h0r : 0 < (List.replicate newCap (none : Option (κ × ν))).length := by
    simpa using h0
  obtain ⟨hlen, hcnt⟩ := placeFold_count hash m.entries _ es2 h0r hf
  have hlen2 : es2.length = newCap := by simpa using hlen
  have hSI : SlotInv hash es2 := by
    refine placeFold_sound hash m.entries _ es2 h0r ?_ ?_
      (slotInv_pairwise hash m.entries hInv.2) hf
    · intro i kv hgi
      rw [getDo_replicate] at hgi
      exact Option.noConfusion hgi
    · intro k2 hk2
      obtain ⟨i, v, hg⟩ := hk2
      rw [getDo_replicate] at hg
      exact absurd hg (by simp)
  have hE : m2.entries = es2 := by rw [hm2]
  refine ⟨⟨?_, ?_⟩, ?_, ?_, ?_⟩
  · show 0 < m2.entries.length
    rw [hE, hlen2]
    exact h0
  · rw [hE]
    exact hSI
  · show m2.entries.countP (·.isSome) = mUsed m
    rw [hE, hcnt, countP_replicate_none, Nat.zero_add]
    rfl
  · show m2.entries.length = newCap
    rw [hE, hlen2]
  · rw [hm2]

/-- Resize succeeds whenever its two guards hold. -/
theorem resize_success (hash : κ → Nat) (m : MapState κ ν) (newCap : Nat)
    (h1 : newCap ≥ mUsed m) (h2 : newCap > capacity m) :
    ∃ m2, Resize hash m newCap = some m2 := by
  rw [Resize_fold, if_pos ⟨h1, h2⟩]
  have h0 : 0 < newCap := lt_of_le_of_lt (Nat.zero_le _) h2
  have h0r : 0 < (List.replicate newCap (none : Option (κ × ν))).length := by
    simpa using h0
  have hcc : m.entries.countP (·.isSome) = mUsed m := rfl
  obtain ⟨es2, hf⟩ := placeFold_success hash m.entries _ h0r
    (by rw [countP_replicate_none, hcc, Nat.zero_add]; simpa using h1)
  exact ⟨_, by rw [hf]; rfl⟩

/-- A completed Insert factors into an optional Resize followed by the
insert probe. -/
theorem insert_cases (hash : κ → Nat) {m : MapState κ ν} {k : κ} {v : ν}
    {m2 : MapState κ ν} (h : Insert hash m k v = some m2) :
    ∃ m1, (Resize hash m (2 * capacity m) = some m1 ∨ m1 = m) ∧
      (probeInsert m1.entries k v (hash k % m1.entries.length)
        m1.entries.length).map (fun es => { m1 with entries := es }) =
        some m2 := by
  unfold Insert at h
  by_cases hc : m.growable ∧ growCond m
  · rw [if_pos hc] at h
    obtain ⟨m1, hr, h2⟩ := Option.bind_eq_some.mp h
    exact ⟨m1, Or.inl hr, h2⟩
  · rw [if_neg hc, Option.some_bind] at h
    exact ⟨m, Or.inr rfl, h⟩

/-- After the insert probe completes, the key reads back with the
written value. -/
theorem probe_part_get (hash : κ → Nat) {m1 : MapState κ ν} {k : κ}
    {v : ν} {m2 : MapState κ ν} (h0 : 0 < m1.entries.length)
    (h : (probeInsert m1.entries k v (hash k % m1.entries.length)
      m1.entries.length).map (fun es => { m1 with entries := es }) =
      some m2) :
    Get hash m2 k = some v := by
  rcases hpi : probeInsert m1.entries k v (hash k % m1.entries.length)
      m1.entries.length with _ | es2
  · rw [hpi] at h
    exact absurd h (by simp)
  · rw [hpi] at h
    have hm2 : m2 = { m1 with entries := es2 } := (Option.some_inj.mp h).symm
    obtain ⟨s, hs, hset, _, hfind⟩ := probeInsert_spec k v
      m1.entries.length m1.entries es2 _ (Nat.mod_lt _ h0) hpi
    have hE : m2.entries = es2 := by rw [hm2]
    have hlen : es2.length = m1.entries.length := by rw [hset]; simp
    show (findSlot hash m2 k).bind
      (fun i => (m2.entries.getD i none).map (·.2)) = some v
    have hfs : findSlot hash m2 k = some s := by
      show probeFind m2.entries k (hash k % m2.entries.length)
        m2.entries.length = some s
      rw [hE, hlen]
      exact hfind
    rw [hfs, Option.some_bind, hE, hset, getDo_set_self _ _ _ hs]
    rfl

/-- The insert probe preserves the table invariant and the length. -/
theorem probe_part_inv (hash : κ → Nat) {m1 : MapState κ ν} {k : κ}
    {v : ν} {m2 : MapState κ ν} (h0 : 0 < m1.entries.length)
    (hSI : SlotInv hash m1.entries)
    (h : (probeInsert m1.entries k v (hash k % m1.entries.length)
      m1.entries.length).map (fun es => { m1 with entries := es }) =
      some m2) :
    SlotInv hash m2.entries ∧ m2.entries.length = m1.entries.length := by
  rcases hpi : probeInsert m1.entries k v (hash k % m1.entries.length)
      m1.entries.length with _ | es2
  · rw [hpi] at h
    exact absurd h (by simp)
  · rw [hpi] at h
    have hm2 : m2 = { m1 with entries := es2 } := (Option.some_inj.mp h).symm
    have hE : m2.entries = es2 := by rw [hm2]
    obtain ⟨s, hs, hset, hshape, hfind⟩ := probeInsert_spec k v
      m1.entries.length m1.entries es2 _ (Nat.mod_lt _ h0) hpi
    have hlen : es2.length = m1.entries.length := by rw [hset]; simp
    refine ⟨?_, by rw [hE, hlen]⟩
    rw [hE]
    intro i kv2 hgi
    by_cases his : i = s
    · subst his
      rw [hset, getDo_set_self _ _ _ hs] at hgi
      obtain rfl := (Option.some_inj.mp hgi).symm
      rw [hlen]
      exact hfind
    · rw [hset, getDo_set_ne _ _ _ _ his] at hgi
      by_cases hk2 : kv2.1 = k
      · rcases hshape with hnone | ⟨v2, hkey⟩
        · have hold := hSI i kv2 hgi
          rw [hk2] at hold
          have hins := probeInsert_of_find k v m1.entries.length
            m1.entries _ i hold
          have hEq : m1.entries.set i (some (k, v)) =
              m1.entries.set s (some (k, v)) := by
            rw [← hset]
            exact Option.some_inj.mp (hins.symm.trans hpi)
          have hcg := congrArg (fun l => l.getD s none) hEq
          simp only at hcg
          rw [getDo_set_ne _ _ _ _ (fun hx => his hx.symm), hnone,
            getDo_set_self _ _ _ hs] at hcg
          exact absurd hcg (by simp)
        · have h1 := hSI i kv2 hgi
          rw [hk2] at h1
          have h2 : probeFind m1.entries k (hash k % m1.entries.length)
              m1.entries.length = some s := hSI s (k, v2) hkey
          rw [h1] at h2
          exact absurd (Option.some_inj.mp h2) his
      · have hold := hSI i kv2 hgi
        have hnew := probeFind_fill k kv2.1 v s m1.entries hs hshape hk2
          m1.entries.length _ i hold
        rw [hlen, hset]
        exact hnew

/-- Insert preserves the map invariant. -/
theorem insert_inv (hash : κ → Nat) {m : MapState κ ν} {k : κ} {v : ν}
    {m2 : MapState κ ν} (hInv : Inv hash m)
    (h : Insert hash m k v = some m2) : Inv hash m2 := by
  obtain ⟨m1, hm1, hp⟩ := insert_cases hash h
  have hInv1 : Inv hash m1 := by
    rcases hm1 with hr | rfl
    · exact (resize_inv hash hInv hr).1
    · exact hInv
  have h0 : 0 < m1.entries.length := hInv1.1
  obtain ⟨hSI2, hlen2⟩ := probe_part_inv hash h0 hInv1.2 hp
  refine ⟨?_, hSI2⟩
  show 0 < m2.entries.length
  rw [hlen2]
  exact h0

/-- Insert succeeds whenever the table has a free slot. -/
theorem insert_success (hash : κ → Nat) (m : MapState κ ν) (k : κ)
    (v : ν) (hfree : mUsed m < capacity m) :
    ∃ m2, Insert hash m k v = some m2 := by
  have hcap0 : 0 < capacity m := lt_of_le_of_lt (Nat.zero_le _) hfree
  unfold Insert
  by_cases hc : m.growable ∧ growCond m
  · rw [if_pos hc]
    obtain ⟨m1, hr⟩ := resize_success hash m (2 * capacity m)
      (by omega) (by omega)
    rw [hr, Option.some_bind]
    obtain ⟨hge, hgt, es2, hf, hm1⟩ := Resize_some hash hr
    have h0r : 0 < (List.replicate (2 * capacity m)
        (none : Option (κ × ν))).length := by
      simp
      omega
    obtain ⟨hlen, hcnt⟩ := placeFold_count hash m.entries _ es2 h0r hf
    have hE : m1.entries = es2 := by rw [hm1]
    have hlen1 : m1.entries.length = 2 * capacity m := by
      rw [hE]
      simpa using hlen
    have hcc : m.entries.countP (·.isSome) = mUsed m := rfl
    have hcnt1 : m1.entries.countP (·.isSome) = mUsed m := by
      rw [hE, hcnt, countP_replicate_none, Nat.zero_add, hcc]
    have hfree1 : m1.entries.countP (·.isSome) < m1.entries.length := by
      rw [hcnt1, hlen1]
      omega
    obtain ⟨i, hi, hni⟩ := countP_lt_exists_none m1.entries hfree1
    have h0 : 0 < m1.entries.length := by omega
    have hpos : hash k % m1.entries.length < m1.entries.length :=
      Nat.mod_lt _ h0
    obtain ⟨j, hj, hwj⟩ := exists_probe_offset _ i _ hpos hi
    obtain ⟨es3, hpi⟩ := probeInsert_success k v m1.entries
      m1.entries.length _ hpos ⟨j, hj, Or.inl (by rw [hwj]; exact hni)⟩
    exact ⟨_, by rw [hpi]; rfl⟩
  · rw [if_neg hc, Option.some_bind]
    have hfree0 : m.entries.countP (·.isSome) < m.entries.length := hfree
    obtain ⟨i, hi, hni⟩ := countP_lt_exists_none m.entries hfree0
    have h0 : 0 < m.entries.length := by omega
    have hpos : hash k % m.entries.length < m.entries.length :=
      Nat.mod_lt _ h0
    obtain ⟨j, hj, hwj⟩ := exists_probe_offset _ i _ hpos hi
    obtain ⟨es3, hpi⟩ := probeInsert_success k v m.entries
      m.entries.length _ hpos ⟨j, hj, Or.inl (by rw [hwj]; exact hni)⟩
    exact ⟨_, by rw [hpi]; rfl⟩

/-- After a completed Insert the key reads back with the written
value. -/
theorem insert_get (hash : κ → Nat) {m : MapState κ ν} {k : κ} {v : ν}
    {m2 : MapState κ ν} (hcap : 0 < capacity m)
    (h : Insert hash m k v = some m2) : Get hash m2 k = some v := by
  obtain ⟨m1, hm1, hp⟩ := insert_cases hash h
  have h0 : 0 < m1.entries.length := by
    rcases hm1 with hr | rfl
    · obtain ⟨_, hgt, es2, hf, hm1e⟩ := Resize_some hash hr
      have h0r : 0 < (List.replicate (2 * capacity m)
          (none : Option (κ × ν))).length := by
        simp
        omega
      obtain ⟨hlen, _⟩ := placeFold_count hash m.entries _ es2 h0r hf
      have hE : m1.entries = es2 := by rw [hm1e]
      rw [hE]
      omega
    · exact hcap
  exact probe_part_get hash h0 hp

/-- Every state reachable without Remove satisfies the invariant. -/
theorem reachable_inv (hash : κ → Nat) {m : MapState κ ν}
    (h : ReachableNR hash m) : Inv hash m := by
  induction h with
  | mk cap g hc =>
    refine ⟨?_, ?_⟩
    · show 0 < (List.replicate cap (none : Option (κ × ν))).length
      simpa using hc
    · intro i kv hg
      have : (List.replicate cap (none : Option (κ × ν))).getD i none =
          none := getDo_replicate cap i
      rw [show (mkMap cap g : MapState κ ν).entries =
        List.replicate cap none from rfl, this] at hg
      exact Option.noConfusion hg
  | ins hr hi ih => exact insert_inv hash ih hi
  | acc hr ha ih =>
    rename_i m0 m2 k
    unfold At at ha
    rcases hfs : findSlot hash m0 k with _ | s <;> rw [hfs] at ha
    · exact insert_inv hash ih ha
    · have hmm : m0 = m2 := Option.some_inj.mp ha
      rw [← hmm]
      exact ih
  | res hr hs ih => exact (resize_inv hash ih hs).1

/-- Under the invariant every live slot is retrievable through Get. -/
theorem inv_lookup (hash : κ → Nat) {m : MapState κ ν}
    (hInv : Inv hash m) (i : Nat) (kv : κ × ν)
    (hg : m.entries.getD i none = some kv) :
    Get hash m kv.1 = some kv.2 := by
  have hf := hInv.2 i kv hg
  show (findSlot hash m kv.1).bind
    (fun j => (m.entries.getD j none).map (·.2)) = some kv.2
  have hfs : findSlot hash m kv.1 = some i := hf
  rw [hfs, Option.some_bind, hg]
  rfl

end NtlMap

namespace NtlMap

variable {κ ν : Type} [DecidableEq κ] [Inhabited ν]

/-- C1: on any map that is still within its growth limit (m_used <
m_capacity, which covers every sequence of prior distinct-key inserts
that stays within the limit), Map::Insert(k, v) completes — growing
first if the load factor demands it — and an immediate Map::Get(k)
returns v. -/
theorem c1_insert_get_roundtrip (hash : κ → Nat) (m : MapState κ ν)
    (k : κ) (v : ν) (hfree : mUsed m < capacity m) :
    ∃ m2, Insert hash m k v = some m2 ∧ Get hash m2 k = some v := by
  obtain ⟨m2, h⟩ := insert_success hash m k v hfree
  exact ⟨m2, h, insert_get hash (lt_of_le_of_lt (Nat.zero_le _) hfree) h⟩

theorem c1_insert_get_roundtrip_witness :
    mUsed (mkMap 4 false : MapState Nat Nat) <
        capacity (mkMap 4 false : MapState Nat Nat) ∧
      ∃ m2, Insert (fun k => k) (mkMap 4 false : MapState Nat Nat) 1 42 =
        some m2 ∧ Get (fun k => k) m2 1 = some 42 :=
  ⟨by decide, c1_insert_get_roundtrip (fun k => k) (mkMap 4 false) 1 42
    (by decide)⟩

/-- C2 counterexample: with the identity hash on a fresh capacity-4
map, Insert(0, 10) lands at its home slot 0; Insert(4, 20) collides
there (4 mod 4 = 0) and settles at slot 1; Remove(0) then clears slot 0
without re-linking the probe chain.  Entry (4, 20) is still live at
slot 1, but Get(4) starts at home slot 0, sees it unused, and fails:
a live entry unreachable by lookup, refuting the claim for histories
containing Remove. -/
theorem c2_counterexample :
    (((Insert (fun k => k) (mkMap 4 false : MapState Nat Nat) 0 10).bind
        fun m1 => Insert (fun k => k) m1 4 20).bind
      fun m2 => Remove (fun k => k) m2 0) =
        some ⟨[none, some (4, 20), none, none], false⟩ ∧
    (⟨[none, some (4, 20), none, none], false⟩ :
      MapState Nat Nat).entries.getD 1 none = some (4, 20) ∧
    Get (fun k => k) (⟨[none, some (4, 20), none, none], false⟩ :
      MapState Nat Nat) 4 = none := by
  refine ⟨by decide, rfl, by decide⟩

/-- C2 (amended): in every map state reachable by Insert, At and Resize
from a fresh map — i.e. any operation sequence without Remove — every
live entry is reached by the linear probe from its key's home slot
before an empty slot intervenes, so Get returns its value.  Remove
voids the invariant, as the counterexample shows. -/
theorem c2_live_entries_reachable (hash : κ → Nat) (m : MapState κ ν)
    (hreach : ReachableNR hash m) (i : Nat) (kv : κ × ν)
    (hslot : m.entries.getD i none = some kv) :
    Get hash m kv.1 = some kv.2 :=
  inv_lookup hash (reachable_inv hash hreach) i kv hslot

theorem c2_live_entries_reachable_witness :
    Get (fun k => k) (⟨[some (0, 7), none], false⟩ : MapState Nat Nat) 0 =
      some 7 :=
  c2_live_entries_reachable (fun k => k) ⟨[some (0, 7), none], false⟩
    (@ReachableNR.ins Nat Nat _ _ (fun k => k) (mkMap 2 false)
      ⟨[some (0, 7), none], false⟩ 0 7
      (ReachableNR.mk 2 false (by decide)) (by decide)) 0 (0, 7) rfl

end NtlMap

namespace NtlSL

/-- Each atomic body preserves the SharedLock invariant. -/
theorem slinv_step {s s2 : SLState} {l : SLLabel} (hInv : SLInv s)
    (h : SLStep s l s2) : SLInv s2 := by
  obtain ⟨h1, h2, h3, h4, h5⟩ := hInv
  cases h with
  | startRead hg =>
    refine ⟨?_, h2, h3, h4, ?_⟩
    · dsimp only
      omega
    · intro hw
      dsimp only at hw
      have := h4.mp hw
      dsimp only
      omega
  | startWrite hg1 hg2 =>
    have hnw : SLState.nWriters _ ≠ 1 := fun hh => by
      rw [h4.mpr hh] at hg2
      exact Bool.noConfusion hg2
    refine ⟨h1, ?_, ?_, ?_, fun _ => hg1⟩
    · dsimp only
      omega
    · dsimp only
      omega
    · dsimp only
      simp only [true_iff]
      omega
  | endRead hg =>
    refine ⟨?_, h2, h3, h4, ?_⟩
    · dsimp only
      omega
    · intro hw
      dsimp only at hw
      have := h5 hw
      dsimp only
      omega
  | endWrite hg =>
    have hw1 := h4.mpr (by omega)
    refine ⟨h1, ?_, by dsimp only; omega, ?_, ?_⟩
    · dsimp only
      omega
    · dsimp only
      constructor
      · intro hh
        exact absurd hh (by simp)
      · intro hh
        exact absurd hh (by omega)
    · intro hh
      dsimp only at hh
      exact absurd hh (by simp)

/-- Every reachable SharedLock state satisfies the invariant. -/
theorem slreachable_inv {s : SLState} (h : SLReachable s) : SLInv s := by
  induction h with
  | init => exact ⟨rfl, rfl, by decide, by simp [SLInit], by simp [SLInit]⟩
  | step hr hs ih => exact slinv_step ih hs

/-- C9: in the one-atomic-step-per-mutex-body model of SharedLock, with
Start steps enabled exactly when their wait condition is false, every
reachable state satisfies is_writing → reader_count = 0, and no
StartRead step fires from a state with writer_count ≠ 0 — a pending
writer excludes new readers. -/
theorem c9_sharedlock_safety :
    (∀ s : SLState, SLReachable s → s.is_writing = true →
      s.reader_count = 0) ∧
    ∀ (s s2 : SLState), SLStep s SLLabel.startRead s2 →
      s.writer_count = 0 := by
  constructor
  · intro s h hw
    exact (slreachable_inv h).2.2.2.2 hw
  · intro s s2 hstep
    cases hstep
    assumption

theorem c9_sharedlock_safety_witness :
    (SLReachable (⟨0, 1, true, 0, 1⟩ : SLState) ∧
      (⟨0, 1, true, 0, 1⟩ : SLState).reader_count = 0) ∧
    (SLStep (⟨0, 0, false, 0, 0⟩ : SLState) SLLabel.startRead
        (⟨1, 0, false, 1, 0⟩ : SLState) ∧
      (⟨0, 0, false, 0, 0⟩ : SLState).writer_count = 0) := by
  have hstepW : SLStep SLInit SLLabel.startWrite
      (⟨0, 1, true, 0, 1⟩ : SLState) :=
    SLStep.startWrite SLInit rfl rfl
  have hreach : SLReachable (⟨0, 1, true, 0, 1⟩ : SLState) :=
    SLReachable.step SLReachable.init hstepW
  have hstepR : SLStep (⟨0, 0, false, 0, 0⟩ : SLState) SLLabel.startRead
      (⟨1, 0, false, 1, 0⟩ : SLState) :=
    SLStep.startRead ⟨0, 0, false, 0, 0⟩ rfl
  exact ⟨⟨hreach, c9_sharedlock_safety.1 _ hreach rfl⟩,
    ⟨hstepR, c9_sharedlock_safety.2 _ _ hstepR⟩⟩

end NtlSL
